import Mathlib

/-!
Verification of the collection-trace store of `differential-dataflow`
(`src/collection_trace/collection_trace.rs`), via a shallow embedding.

Machine integers: weights are Rust `i32`; they are modelled as `Int`
(the claims under study are about multiset/weight semantics, not about
integer wrap-around).  Indices (`u32`/`usize`) are modelled as `Nat`;
the one place where the 32-bit bound is semantically load-bearing is
`Offset::new`, which is modelled separately (`offsetNew`) with its
exact bound.  Rust panics (failed asserts, out-of-bounds indexing) are
modelled with `Option`: `none` is the panic.  Non-structural loops are
modelled with an explicit fuel argument, always called with enough
fuel (lemmas below establish sufficiency), so that every definition is
executable by `decide`/`rfl`.
-/

namespace DDT

variable {K : Type} [DecidableEq K]
variable {T : Type} [DecidableEq T]
variable {V : Type} [LinearOrder V]

/-- Sum of the weights attached to value `v` in a weighted-value list. -/
def weight (v : V) (l : List (V × Int)) : Int :=
  ((l.filter (fun p => decide (p.1 = v))).map (fun p => p.2)).sum

/-- Total number of weighted-value entries across a list of slices. -/
def totalLen (slices : List (List (V × Int))) : Nat :=
  (slices.map List.length).sum

/-- Canonical batch form (spec invariant 3): values strictly increasing,
no zero weights. -/
def Coalesced (l : List (V × Int)) : Prop :=
  List.Chain' (fun a b => a.1 < b.1) l ∧ ∀ p ∈ l, p.2 ≠ 0

/-- `v` occurs as a value in one of the slices. -/
def OccursIn (v : V) (slices : List (List (V × Int))) : Prop :=
  ∃ s ∈ slices, ∃ p ∈ s, p.1 = v

/-- Total weight attached to `u` across a list of slices. -/
def sumWeights (u : V) (slices : List (List (V × Int))) : Int :=
  (slices.map (weight u)).sum

/-! ### The `merge` function (collection_trace.rs, lines 81-109)

`fn merge<V: Ord+Clone>(mut slices: Vec<&[(V, i32)]>, target: &mut Vec<(V, i32)>)`.
The `while slices.len() > 1` loop is embedded as `mergeCore` with a fuel
argument; each iteration shortens the total length by at least one, so
`merge` calls it with fuel `totalLen`. -/

/-- The scan `for slice in &slices[1..] { if &slice[0].0 < value { ... } }`:
minimum leading value among the heads of `slices`, seeded with `v`
(the head of the first slice).  An empty slice cannot occur at this point
in the source (they were just retained away); it is skipped here. -/
def minHead (v : V) : List (List (V × Int)) → V
  | [] => v
  | [] :: rest => minHead v rest
  | ((w, _) :: _) :: rest => minHead (if w < v then w else v) rest

/-- The scan `for slice in &mut slices[..] { if &slice[0].0 == value { ... } }`:
sum the weights of the heads equal to `v` and advance those slices. -/
def accumAdvance (v : V) : List (List (V × Int)) → Int × List (List (V × Int))
  | [] => (0, [])
  | [] :: rest =>
    ((accumAdvance v rest).1, [] :: (accumAdvance v rest).2)
  | ((w, n) :: tl) :: rest =>
    if w = v then
      ((accumAdvance v rest).1 + n, tl :: (accumAdvance v rest).2)
    else ((accumAdvance v rest).1, ((w, n) :: tl) :: (accumAdvance v rest).2)

/-- The `while slices.len() > 1` loop of `merge`, followed by the final
`slices.pop()` / `target.extend`.  All slices are non-empty on entry
(`retain` ran just before); the `[] :: _` head case is unreachable and the
fuel is always sufficient (see `mergeCore_*` lemmas). -/
def mergeCore : Nat → List (List (V × Int)) → List (V × Int) → List (V × Int)
  | _, [], target => target
  | _, [s], target => target ++ s
  | 0, _ :: _ :: _, target => target
  | _ + 1, ([]) :: _ :: _, target => target
  | fuel + 1, ((v₀, w₀) :: tl₀) :: s₁ :: rest, target =>
    let v := minHead v₀ (s₁ :: rest)
    let ca := accumAdvance v (((v₀, w₀) :: tl₀) :: s₁ :: rest)
    let target1 := if ca.1 ≠ 0 then target ++ [(v, ca.1)] else target
    mergeCore fuel (ca.2.filter (fun s => decide (0 < s.length))) target1

/-- `merge(slices, target)`: retain non-empty slices, run the loop. -/
def merge (slices : List (List (V × Int))) (target : List (V × Int)) :
    List (V × Int) :=
  mergeCore (totalLen slices) (slices.filter (fun s => decide (0 < s.length)))
    target

/-! ### Spec-modelled collaborators

`coalesce` (module `sort`), the iterator adapters `Merge`/`Coalesce`
(module `iterators`), and `close_under_lub` (module `collection_trace`)
are used by `collection_trace.rs` but their code is not part of the
given sources; they are modelled from the spec's words (§1, §6). -/

/-- Helper for `coalesceRuns`: carries the current value `v` and the sum
`w` of its weights seen so far; emits `(v, w)` (unless zero) when the run
ends. -/
def coalesceAux (v : V) (w : Int) : List (V × Int) → List (V × Int)
  | [] => if w = 0 then [] else [(v, w)]
  | (v', w') :: rest =>
    if v' = v then coalesceAux v (w + w') rest
    else (if w = 0 then [] else [(v, w)]) ++ coalesceAux v' w' rest

/-- Modelled from the spec: the `Coalesce` iterator adapter — "collapse
runs of equal V, drop zero totals" (§6). -/
def coalesceRuns : List (V × Int) → List (V × Int)
  | [] => []
  | (v, w) :: rest => coalesceAux v w rest

/-- Insertion into a list sorted by value (helper for `sortPairs`). -/
def insertPair (p : V × Int) : List (V × Int) → List (V × Int)
  | [] => [p]
  | q :: rest => if p.1 ≤ q.1 then p :: q :: rest else q :: insertPair p rest

/-- Insertion sort by value (helper for the spec-modelled `coalesce`). -/
def sortPairs : List (V × Int) → List (V × Int)
  | [] => []
  | p :: rest => insertPair p (sortPairs rest)

/-- Modelled from the spec: `coalesce(&mut Vec<(V, i32)>)` from the missing
`sort` module — "sort by V, sum weights of equal V, drop zero weights" (§6). -/
def coalesce (l : List (V × Int)) : List (V × Int) :=
  coalesceRuns (sortPairs l)

/-- Helper for the spec-modelled `Merge` adapter: removes the head pair
with the minimal leading value (first slice wins ties), returning it and
the advanced slices. -/
def takeMinHead : List (List (V × Int)) →
    Option ((V × Int) × List (List (V × Int)))
  | [] => none
  | [] :: rest => (takeMinHead rest).map (fun er => (er.1, [] :: er.2))
  | (p :: tl) :: rest =>
    match takeMinHead rest with
    | none => some (p, tl :: rest)
    | some (q, rs) =>
      if q.1 < p.1 then some (q, (p :: tl) :: rs) else some (p, tl :: rest)

/-- Modelled from the spec: the `Merge` iterator adapter — "k-way sorted
merge of `(&V, i32)` streams by V" (§6).  Fueled; `totalLen` fuel suffices. -/
def mergeStreams : Nat → List (List (V × Int)) → List (V × Int)
  | 0, _ => []
  | fuel + 1, slices =>
    match takeMinHead slices with
    | none => []
    | some (p, rest) => p :: mergeStreams fuel rest

/-- One closure round: for every pair `(a, b)` of the current vector, add
`lub a b` if not already present. -/
def addLubs (lub : T → T → T) (xs : List T) : List T :=
  (xs.product xs).foldl
    (fun acc p => if lub p.1 p.2 ∈ acc then acc else acc ++ [lub p.1 p.2]) xs

/-- Iterate `addLubs` until no new element appears (detected by the length
not growing), bounded by fuel. -/
def closeLoop (lub : T → T → T) : Nat → List T → List T
  | 0, xs => xs
  | fuel + 1, xs =>
    let ys := addLubs lub xs
    if ys.length = xs.length then xs else closeLoop lub fuel ys

/-- All least-upper-bounds of non-empty subsequences of `xs` (in a fixed
association order); used to bound the size of the LUB closure. -/
def subLubs (lub : T → T → T) : List T → List T
  | [] => []
  | a :: rest =>
    let s := subLubs lub rest
    a :: (s ++ s.map (lub a))

/-- Modelled from the spec: `close_under_lub(&mut Vec<Self>)` — "repeatedly
add `lub(a, b)` for any pair `(a, b)` already present until no new element
appears" (§4.5, §6).  The fuel `2 ^ xs.length` exceeds the possible number
of growing rounds for a semilattice `lub` (see `closeLoop_closed`), so the
iteration always reaches its fixpoint. -/
def close_under_lub (lub : T → T → T) (xs : List T) : List T :=
  closeLoop lub (2 ^ xs.length) xs

/-! ### The `Offset` handle (collection_trace.rs, lines 32-45)

`Offset { dataz: u32 }`; `new` asserts `offset < (!0u32) as usize` (strict)
and stores `(!0u32) - offset as u32`; `val` recovers the index. -/

/-- The `Offset` value type: a `u32` stored complemented. -/
structure OffsetT where
  dataz : Nat
  deriving DecidableEq

/-- `Offset::new(offset)`: the failed assert is `none`. -/
def offsetNew (offset : Nat) : Option OffsetT :=
  if offset < 2 ^ 32 - 1 then some ⟨2 ^ 32 - 1 - offset⟩ else none

/-- `Offset::val`. -/
def OffsetT.val (o : OffsetT) : Nat := 2 ^ 32 - 1 - o.dataz

/-! ### The store (collection_trace.rs, lines 68-283)

Offsets inside the store are modelled as plain `Nat` indices into the
link array (the `Offset` encoding round-trips, see the `offsetNew`
theorems; the 2^32-1 capacity assert is not load-bearing for the claims
about store semantics).  The abstract `Lookup<K, Offset>` collaborator is
modelled as an association list with `get_ref` = `lookupKey` and the
update part of `entry_or_insert` = `setKey`/append, following its §6
contract. -/

/-- A link record `(time_index, value_lower, next)`. -/
abbrev Link : Type := Nat × Nat × Option Nat

/-- The `CollectionTrace` state (the `PhantomData` field is dropped). -/
structure CT (K T V : Type) where
  links : List Link
  times : List (T × List (V × Int))
  keys  : List (K × Nat)
  temp  : List (V × Int)
  deriving DecidableEq

/-- `CollectionTrace::new`. -/
def CT.new : CT K T V := ⟨[], [], [], []⟩

/-- `Lookup::get_ref` on the association-list model. -/
def lookupKey : List (K × Nat) → K → Option Nat
  | [], _ => none
  | (k', v) :: rest, k => if k' = k then some v else lookupKey rest k

/-- Store `v` under `k` (update in place, or append if absent). -/
def setKey : List (K × Nat) → K → Nat → List (K × Nat)
  | [], k, v => [(k, v)]
  | (k', v') :: rest, k, v =>
    if k' = k then (k, v) :: rest else (k', v') :: setKey rest k v

/-- The inner scan of `install_differences`: length of the run of keys
equal to `k` at the head of the list, and the remainder. -/
def splitRun (k : K) : List K → Nat × List K
  | [] => (0, [])
  | k' :: rest =>
    if k' = k then
      let nr := splitRun k rest
      (nr.1 + 1, nr.2)
    else (0, k' :: rest)

/-- The `while lower < keys.len()` loop of `install_differences`
(lines 122-143): one link record per contiguous run of equal keys, spliced
onto the key's chain via the `entry_or_insert` sentinel-comparison
protocol.  Fueled; `keys.length` fuel suffices (each iteration consumes at
least one key). -/
def installLoop (timesLen : Nat) :
    Nat → List K → Nat → List Link → List (K × Nat) →
    List Link × List (K × Nat)
  | _, [], _, links, km => (links, km)
  | 0, _ :: _, _, links, km => (links, km)
  | fuel + 1, k :: rest, lower, links, km =>
    let nr := splitRun k rest
    let nextPos := links.length
    match lookupKey km k with
    | none =>
      -- `entry_or_insert` inserts the freshly minted offset; the
      -- comparison `prev_position.val() == next_position.val()` succeeds.
      installLoop timesLen fuel nr.2 (lower + nr.1 + 1)
        (links ++ [(timesLen, lower, none)]) (km ++ [(k, nextPos)])
    | some prev =>
      if prev = nextPos then
        installLoop timesLen fuel nr.2 (lower + nr.1 + 1)
          (links ++ [(timesLen, lower, none)]) km
      else
        installLoop timesLen fuel nr.2 (lower + nr.1 + 1)
          (links ++ [(timesLen, lower, some prev)]) (setKey km k nextPos)

/-- `CollectionTrace::install_differences` (lines 119-152).  The
`shrink_to_fit` freeze of the prior last entry does not change contents
and is the identity here. -/
def install_differences (σ : CT K T V) (t : T) (keys : List K)
    (vals : List (V × Int)) : CT K T V :=
  let lk := installLoop σ.times.length keys.length keys 0 σ.links σ.keys
  let times' :=
    match σ.times.getLast? with
    | none => σ.times ++ [(t, vals)]
    | some last => if last.1 = t then σ.times else σ.times ++ [(t, vals)]
  ⟨lk.1, times', lk.2, σ.temp⟩

/-- `CollectionTrace::get_range` (lines 196-211).  Out-of-bounds indexing
(link position, time index, or slice bounds) is a Rust panic: `none`. -/
def get_range (σ : CT K T V) (p : Nat) : Option (List (V × Int)) :=
  match σ.links.get? p with
  | none => none
  | some (i, lower, _) =>
    match σ.times.get? i with
    | none => none
    | some (_, vs) =>
      let upper :=
        match σ.links.get? (p + 1) with
        | some (i', l', _) => if i' = i then l' else vs.length
        | none => vs.length
      if lower ≤ upper ∧ upper ≤ vs.length then
        some ((vs.drop lower).take (upper - lower))
      else none

/-- One step of `TraceIterator::next` (lines 263-270) from link position
`p`: the `(time, batch)` pair and the next position. -/
def traceStep (σ : CT K T V) (p : Nat) :
    Option ((T × List (V × Int)) × Option Nat) :=
  match σ.links.get? p with
  | none => none
  | some (i, _, nxt) =>
    match σ.times.get? i with
    | none => none
    | some (tm, _) => (get_range σ p).map (fun s => ((tm, s), nxt))

/-- Materialised `TraceIterator` walk from an optional head position.
Fueled: a cyclic chain (never reachable) would make the Rust iterator
infinite; `σ.links.length + 1` fuel suffices in well-formed states. -/
def traceFrom (σ : CT K T V) :
    Nat → Option Nat → Option (List (T × List (V × Int)))
  | _, none => some []
  | 0, some _ => none
  | fuel + 1, some p =>
    match traceStep σ p with
    | none => none
    | some (e, nxt) => (traceFrom σ fuel nxt).map (fun l => e :: l)

/-- The link positions visited by the walk (same recursion). -/
def chainPosFrom (σ : CT K T V) : Nat → Option Nat → Option (List Nat)
  | _, none => some []
  | 0, some _ => none
  | fuel + 1, some p =>
    match traceStep σ p with
    | none => none
    | some (_, nxt) => (chainPosFrom σ fuel nxt).map (fun l => p :: l)

/-- `CollectionTrace::trace` (lines 243-248), materialised. -/
def traceList (σ : CT K T V) (k : K) : Option (List (T × List (V × Int))) :=
  traceFrom σ (σ.links.length + 1) (lookupKey σ.keys k)

/-- Link positions of a key's chain, newest-first. -/
def chainPos (σ : CT K T V) (k : K) : Option (List Nat) :=
  chainPosFrom σ (σ.links.length + 1) (lookupKey σ.keys k)

/-- The `time_index` field of the link at position `p` (0 out of bounds). -/
def timeIdxAt (σ : CT K T V) (p : Nat) : Nat :=
  ((σ.links.get? p).map (fun l => l.1)).getD 0

variable [PartialOrder T] [DecidableRel (fun a b : T => a ≤ b)]

/-- `CollectionTrace::get_collection` (lines 217-221): assert the target
is empty, collect the chain slices whose time `≤ time` under the partial
order, merge into the target. -/
def get_collection (σ : CT K T V) (k : K) (t : T)
    (target : List (V × Int)) : Option (List (V × Int)) :=
  if target.length = 0 then
    (traceList σ k).map (fun ch =>
      merge ((ch.filter (fun e => decide (e.1 ≤ t))).map (fun e => e.2))
        target)
  else none

/-- `CollectionTrace::set_collection` (lines 156-194).  The scratch
buffer `temp` is moved out (`mem::replace`), used as the target of the
inner `get_collection` call, and the store's `temp` ends cleared. -/
def set_collection (σ : CT K T V) (k : K) (t : T)
    (collection : List (V × Int)) : Option (CT K T V) :=
  let coll := coalesce collection
  let times1 :=
    match σ.times.getLast? with
    | none => σ.times ++ [(t, [])]
    | some last => if last.1 = t then σ.times else σ.times ++ [(t, [])]
  let σ1 : CT K T V := ⟨σ.links, times1, σ.keys, []⟩
  match times1.getLast? with
  | none => none
  | some lastEntry =>
    match get_collection σ1 k lastEntry.1 σ.temp with
    | none => none
    | some temp0 =>
      let temp1 := temp0.map (fun p => (p.1, p.2 * (-1)))
      let index := times1.length - 1
      match times1.get? index with
      | none => none
      | some entry =>
        let offset := entry.2.length
        let updates' := merge [temp1, coll] entry.2
        let times2 := times1.set index (entry.1, updates')
        if offset < updates'.length then
          let nextPos := σ.links.length
          match lookupKey σ.keys k with
          | none =>
            some ⟨σ.links ++ [(index, offset, none)], times2,
              σ.keys ++ [(k, nextPos)], []⟩
          | some prev =>
            if prev = nextPos then
              some ⟨σ.links ++ [(index, offset, none)], times2, σ.keys, []⟩
            else
              some ⟨σ.links ++ [(index, offset, some prev)], times2,
                setKey σ.keys k nextPos, []⟩
        else some ⟨σ.links, times2, σ.keys, []⟩

/-- `CollectionTrace::get_collection_iterator` (lines 223-230), with the
spec-modelled `Merge`/`Coalesce` adapters materialised into a list. -/
def get_collection_iterator (σ : CT K T V) (k : K) (t : T) :
    Option (List (V × Int)) :=
  (traceList σ k).map (fun ch =>
    let slices := (ch.filter (fun e => decide (e.1 ≤ t))).map (fun e => e.2)
    coalesceRuns (mergeStreams (totalLen slices) slices))

/-- `CollectionTrace::interesting_times` (lines 232-240). -/
def interesting_times (lub : T → T → T) (σ : CT K T V) (k : K) (index : T)
    (result : List T) : Option (List T) :=
  (traceList σ k).map (fun ch =>
    close_under_lub lub
      (ch.foldl (fun res e =>
        let l := lub e.1 index
        if l ∈ res then res else res ++ [l]) result))

/-- A list is closed under the binary least-upper-bound operation. -/
def LubClosed (lub : T → T → T) (l : List T) : Prop :=
  ∀ a ∈ l, ∀ b ∈ l, lub a b ∈ l

/-! ### Claim-side description of `install_differences` (for the
refinement-style claim about its effect)

These definitions follow the words of the spec (§4.5): "for each
contiguous run `[lower, upper)`, append a link record
`(current_time_index, lower, prior_head_or_None)` and update the key map
so the run's key points at the new link". -/

/-- The contiguous runs of equal keys, as `(key, run start)` pairs.
Fueled; `keys.length` fuel suffices. -/
def runsFrom : Nat → List K → Nat → List (K × Nat)
  | _, [], _ => []
  | 0, _ :: _, _ => []
  | fuel + 1, k :: rest, lower =>
    let nr := splitRun k rest
    (k, lower) :: runsFrom fuel nr.2 (lower + nr.1 + 1)

/-- Per run: append a link whose `next` is the prior head (`None` for a
first-inserted key) and point the key map at the new link. -/
def installSpecLoop (timesLen : Nat) :
    List (K × Nat) → List Link → List (K × Nat) →
    List Link × List (K × Nat)
  | [], links, km => (links, km)
  | (k, s) :: rest, links, km =>
    installSpecLoop timesLen rest
      (links ++ [(timesLen, s, lookupKey km k)]) (setKey km k links.length)

/-- The effect of `install_differences` as described by the claim: link
records per run, and a `(time, vals)` entry pushed exactly when the time
array is empty or its last entry's time differs (freezing is the
identity on contents); otherwise the time array is unchanged and `vals`
is discarded. -/
def installSpec (σ : CT K T V) (t : T) (keys : List K)
    (vals : List (V × Int)) : CT K T V :=
  let lk := installSpecLoop σ.times.length (runsFrom keys.length keys 0)
    σ.links σ.keys
  let times' :=
    match σ.times.getLast? with
    | none => σ.times ++ [(t, vals)]
    | some last => if last.1 = t then σ.times else σ.times ++ [(t, vals)]
  ⟨lk.1, times', lk.2, σ.temp⟩

/-! ### Valid calls, well-formedness, reachability -/

/-- Values strictly increase across every adjacent equal-key pair: the
executable form of "sorted-and-coalesced within each key's run". -/
def runSorted : List K → List (V × Int) → Bool
  | k1 :: k2 :: ks, p :: q :: ps =>
    ((!decide (k1 = k2)) || decide (p.1 < q.1)) &&
      runSorted (k2 :: ks) (q :: ps)
  | _, _ => true

/-- Documented preconditions of `install_differences` (§4.5): the values
match the key runs in length, are non-zero, and are sorted-and-coalesced
within each run; and the batch's time is not the currently active time
(§4.5/§9: behaviour for a repeated time is flagged as an open question,
and a repeated time corrupts the link array — see the dangling-index
theorem below). -/
def ValidInstall (σ : CT K T V) (t : T) (keys : List K)
    (vals : List (V × Int)) : Prop :=
  vals.length = keys.length ∧
  (∀ p ∈ vals, p.2 ≠ 0) ∧
  runSorted keys vals = true ∧
  (∀ last ∈ σ.times.getLast?, last.1 ≠ t)

/-- States reachable by valid `install_differences` and (non-panicking)
`set_collection` calls from the empty store. -/
inductive Reachable [PartialOrder T]
    [DecidableRel (fun a b : T => a ≤ b)] : CT K T V → Prop
  | init : Reachable CT.new
  | install {σ : CT K T V} {t keys vals} : Reachable σ →
      ValidInstall σ t keys vals →
      Reachable (install_differences σ t keys vals)
  | set {σ σ' : CT K T V} {k t c} : Reachable σ →
      set_collection σ k t c = some σ' → Reachable σ'

/-- Structural well-formedness of a store: every link's time index is in
bounds, time indices are monotone along the link array, every link's
range is valid and denotes a coalesced slice, the key map holds distinct
keys pointing at existing links, chain pointers strictly decrease, and
the scratch buffer is empty. -/
structure WF (σ : CT K T V) : Prop where
  linkTime : ∀ l ∈ σ.links, l.1 < σ.times.length
  linkMono : List.Chain' (fun a b : Link => a.1 ≤ b.1) σ.links
  ranges : ∀ p, p < σ.links.length →
    ∃ s, get_range σ p = some s ∧ Coalesced s
  keysBound : ∀ e ∈ σ.keys, e.2 < σ.links.length
  keysNodup : (σ.keys.map Prod.fst).Nodup
  linkNext : ∀ p l, σ.links.get? p = some l → ∀ q ∈ l.2.2, q < p
  tempNil : σ.temp = []

/-- Run decomposition produced by the install loop: each link covers one
run starting at `lower`. -/
inductive StartsOK (timesLen : Nat) : List K → Nat → List Link → Prop
  | nil : ∀ lower, StartsOK timesLen [] lower []
  | cons : ∀ k rest lower nxt nl,
      StartsOK timesLen (splitRun k rest).2
        (lower + (splitRun k rest).1 + 1) nl →
      StartsOK timesLen (k :: rest) lower ((timesLen, lower, nxt) :: nl)

/-! ### Concrete stores for witnesses (over `K = T = V = Nat`) -/

/-- Witness store: one install at time 1 with two keys. -/
def wS1 : CT Nat Nat Nat :=
  install_differences CT.new 1 [0, 0, 1] [(0, 1), (1, 1), (0, 1)]

/-- Witness store: a second install at time 2. -/
def wS2 : CT Nat Nat Nat := install_differences wS1 2 [0] [(0, -1)]

/-- Witness store: `set_collection` on `wS2`. -/
def wS3 : CT Nat Nat Nat :=
  (set_collection wS2 0 2 [(1, 1), (2, 5)]).getD CT.new

/-- Duplicate-time install sequence: first call. -/
def wB1 : CT Nat Nat Nat := install_differences CT.new 0 [0] [(0, 1)]

/-- Duplicate-time install sequence: second call repeats the active
time, leaving a link whose time index dangles past the time array. -/
def wB2 : CT Nat Nat Nat := install_differences wB1 0 [0] [(0, 1)]

/-! ## Theorems -/

/-! ### Weight and coalesced-form basics -/

theorem weight_nil (v : V) : weight v ([] : List (V × Int)) = 0 := rfl

theorem weight_cons (v : V) (p : V × Int) (l : List (V × Int)) :
    weight v (p :: l) = (if p.1 = v then p.2 else 0) + weight v l := by
  by_cases h : p.1 = v <;> simp [weight, List.filter_cons, h]

theorem weight_append (v : V) (l1 l2 : List (V × Int)) :
    weight v (l1 ++ l2) = weight v l1 + weight v l2 := by
  simp [weight, List.filter_append]

theorem weight_eq_zero_of_not_mem {v : V} {l : List (V × Int)}
    (h : ∀ q ∈ l, q.1 ≠ v) : weight v l = 0 := by
  induction l with
  | nil => rfl
  | cons p t ih =>
    rw [weight_cons, if_neg (h p (List.mem_cons_self p t)),
      ih (fun q hq => h q (List.mem_cons_of_mem p hq)), add_zero]

theorem exists_mem_of_weight_ne_zero {v : V} {l : List (V × Int)}
    (h : weight v l ≠ 0) : ∃ q ∈ l, q.1 = v := by
  by_contra hc
  push_neg at hc
  exact h (weight_eq_zero_of_not_mem hc)

theorem chain_lt_head {p : V × Int} {l : List (V × Int)}
    (h : List.Chain' (fun a b : V × Int => a.1 < b.1) (p :: l)) :
    ∀ q ∈ l, p.1 < q.1 := by
  induction l generalizing p with
  | nil => intro q hq; cases hq
  | cons r t ih =>
    intro q hq
    rw [List.chain'_cons] at h
    rcases List.mem_cons.mp hq with hq | hq
    · exact hq ▸ h.1
    · exact lt_trans h.1 (ih h.2 q hq)

theorem coalesced_nil : Coalesced ([] : List (V × Int)) :=
  ⟨List.chain'_nil, by intro p hp; cases hp⟩

theorem coalesced_tail {p : V × Int} {l : List (V × Int)}
    (h : Coalesced (p :: l)) : Coalesced l :=
  ⟨(List.chain'_cons'.mp h.1).2, fun q hq => h.2 q (List.mem_cons_of_mem p hq)⟩

theorem coalesced_head_weight {p : V × Int} {l : List (V × Int)}
    (h : Coalesced (p :: l)) : weight p.1 (p :: l) = p.2 := by
  rw [weight_cons, if_pos rfl,
    weight_eq_zero_of_not_mem (fun q hq => ne_of_gt (chain_lt_head h.1 q hq)),
    add_zero]

theorem weight_cons_of_ne {v : V} {p : V × Int} {l : List (V × Int)}
    (h : p.1 ≠ v) : weight v (p :: l) = weight v l := by
  rw [weight_cons, if_neg h, zero_add]

theorem weight_single (v : V) (c : Int) : weight v [(v, c)] = c := by
  rw [weight_cons, weight_nil, add_zero, if_pos rfl]

theorem weight_single_ne {u v : V} (h : u ≠ v) (c : Int) :
    weight u [(v, c)] = 0 := by
  rw [weight_cons, weight_nil, add_zero, if_neg (fun hc => h hc.symm)]

/-- A strictly sorted, zero-free weighted list is determined by its
weight function. -/
theorem coalesced_ext {l1 l2 : List (V × Int)} (h1 : Coalesced l1)
    (h2 : Coalesced l2) (hw : ∀ v, weight v l1 = weight v l2) :
    l1 = l2 := by
  induction l1 generalizing l2 with
  | nil =>
    cases l2 with
    | nil => rfl
    | cons q t2 =>
      exfalso
      have := (hw q.1).symm
      rw [coalesced_head_weight h2, weight_nil] at this
      exact h2.2 q (List.mem_cons_self q t2) this
  | cons p t1 ih =>
    cases l2 with
    | nil =>
      exfalso
      have := hw p.1
      rw [coalesced_head_weight h1, weight_nil] at this
      exact h1.2 p (List.mem_cons_self p t1) this
    | cons q t2 =>
      have hpq : p.1 = q.1 := by
        rcases lt_trichotomy p.1 q.1 with h | h | h
        · exfalso
          have hz : weight p.1 (q :: t2) = 0 :=
            weight_eq_zero_of_not_mem (by
              intro r hr
              rcases List.mem_cons.mp hr with hr | hr
              · exact hr ▸ (ne_of_gt h)
              · exact ne_of_gt (lt_trans h (chain_lt_head h2.1 r hr)))
          have := hw p.1
          rw [coalesced_head_weight h1, hz] at this
          exact h1.2 p (List.mem_cons_self p t1) this
        · exact h
        · exfalso
          have hz : weight q.1 (p :: t1) = 0 :=
            weight_eq_zero_of_not_mem (by
              intro r hr
              rcases List.mem_cons.mp hr with hr | hr
              · exact hr ▸ (ne_of_gt h)
              · exact ne_of_gt (lt_trans h (chain_lt_head h1.1 r hr)))
          have := (hw q.1).symm
          rw [coalesced_head_weight h2, hz] at this
          exact h2.2 q (List.mem_cons_self q t2) this
      have hw2 : p.2 = q.2 := by
        have := hw p.1
        rw [coalesced_head_weight h1, hpq, coalesced_head_weight h2] at this
        exact this
      have htl : t1 = t2 := by
        refine ih (coalesced_tail h1) (coalesced_tail h2) ?_
        intro v
        by_cases hv : v = p.1
        · subst hv
          rw [weight_eq_zero_of_not_mem
              (fun r hr => ne_of_gt (chain_lt_head h1.1 r hr)),
            weight_eq_zero_of_not_mem
              (fun r hr => by
                rw [hpq]; exact ne_of_gt (chain_lt_head h2.1 r hr))]
        · have := hw v
          rw [weight_cons_of_ne (fun hc => hv hc.symm),
            weight_cons_of_ne (fun hc => hv (hpq ▸ hc.symm))] at this
          exact this
      calc p :: t1 = (p.1, p.2) :: t1 := rfl
        _ = (q.1, q.2) :: t2 := by rw [hpq, hw2, htl]
        _ = q :: t2 := rfl

/-! ### `totalLen` and `sumWeights` bookkeeping -/

theorem totalLen_cons (s : List (V × Int)) (l : List (List (V × Int))) :
    totalLen (s :: l) = s.length + totalLen l := by
  simp [totalLen]

theorem totalLen_filter_le (l : List (List (V × Int))) :
    totalLen (l.filter (fun s => decide (0 < s.length))) ≤ totalLen l := by
  induction l with
  | nil => exact le_refl 0
  | cons s rest ih =>
    by_cases h : 0 < s.length
    · have he : List.filter (fun s => decide (0 < s.length)) (s :: rest) =
          s :: List.filter (fun s => decide (0 < s.length)) rest := by
        simp [List.filter_cons, h]
      rw [he, totalLen_cons, totalLen_cons]
      exact Nat.add_le_add_left ih _
    · have he : List.filter (fun s => decide (0 < s.length)) (s :: rest) =
          List.filter (fun s => decide (0 < s.length)) rest := by
        simp [List.filter_cons, h]
      rw [he, totalLen_cons]
      exact le_trans ih (Nat.le_add_left _ _)

theorem sumWeights_nil (u : V) : sumWeights u ([] : List (List (V × Int))) = 0 :=
  rfl

theorem sumWeights_cons (u : V) (s : List (V × Int))
    (l : List (List (V × Int))) :
    sumWeights u (s :: l) = weight u s + sumWeights u l := by
  simp [sumWeights]

theorem sumWeights_filter (u : V) (l : List (List (V × Int))) :
    sumWeights u (l.filter (fun s => decide (0 < s.length))) =
      sumWeights u l := by
  induction l with
  | nil => rfl
  | cons s rest ih =>
    by_cases h : 0 < s.length
    · simp [List.filter_cons, h, sumWeights_cons, ih]
    · have hs : s = [] := List.length_eq_zero.mp (Nat.eq_zero_of_not_pos h)
      simp [List.filter_cons, h, sumWeights_cons, ih, hs, weight_nil]

/-! ### `minHead` lemmas -/

theorem minHead_le (l : List (List (V × Int))) : ∀ v, minHead v l ≤ v := by
  induction l with
  | nil => intro v; exact le_refl v
  | cons s rest ih =>
    intro v
    cases s with
    | nil => simpa [minHead] using ih v
    | cons p tl =>
      obtain ⟨w, n⟩ := p
      by_cases h : w < v
      · simp only [minHead, if_pos h]
        exact le_trans (ih w) (le_of_lt h)
      · simp only [minHead, if_neg h]
        exact ih v

theorem minHead_le_head {l : List (List (V × Int))} :
    ∀ v w n tl, ((w, n) :: tl) ∈ l → minHead v l ≤ w := by
  induction l with
  | nil => intro v w n tl h; cases h
  | cons s rest ih =>
    intro v w n tl h
    rcases List.mem_cons.mp h with heq | hmem
    · subst heq
      by_cases hw : w < v
      · simp only [minHead, if_pos hw]; exact minHead_le rest w
      · simp only [minHead, if_neg hw]
        exact le_trans (minHead_le rest v) (le_of_not_lt hw)
    · cases s with
      | nil => simp only [minHead]; exact ih v w n tl hmem
      | cons p tl' =>
        obtain ⟨w', n'⟩ := p
        simp only [minHead]
        exact ih _ w n tl hmem

theorem minHead_mem (l : List (List (V × Int))) :
    ∀ v, minHead v l = v ∨
      ∃ s ∈ l, ∃ n tl, s = (minHead v l, n) :: tl := by
  induction l with
  | nil => intro v; exact Or.inl rfl
  | cons s rest ih =>
    intro v
    cases s with
    | nil =>
      simp only [minHead]
      rcases ih v with h | ⟨s', hs', h⟩
      · exact Or.inl h
      · exact Or.inr ⟨s', List.mem_cons_of_mem _ hs', h⟩
    | cons p tl =>
      obtain ⟨w, n⟩ := p
      simp only [minHead]
      by_cases hw : w < v
      · simp only [if_pos hw]
        rcases ih w with h | ⟨s', hs', h⟩
        · exact Or.inr ⟨(w, n) :: tl, List.mem_cons_self _ _, n, tl, by rw [h]⟩
        · exact Or.inr ⟨s', List.mem_cons_of_mem _ hs', h⟩
      · simp only [if_neg hw]
        rcases ih v with h | ⟨s', hs', h⟩
        · exact Or.inl h
        · exact Or.inr ⟨s', List.mem_cons_of_mem _ hs', h⟩

/-! ### `accumAdvance` lemmas -/

theorem accumAdvance_len_le (v : V) (l : List (List (V × Int))) :
    totalLen (accumAdvance v l).2 ≤ totalLen l := by
  induction l with
  | nil => exact le_refl 0
  | cons s rest ih =>
    cases s with
    | nil => simpa [accumAdvance, totalLen_cons] using ih
    | cons p tl =>
      obtain ⟨w, n⟩ := p
      by_cases hw : w = v
      · simp only [accumAdvance, if_pos hw, totalLen_cons]
        exact Nat.add_le_add (Nat.le_succ _) ih
      · simp only [accumAdvance, if_neg hw, totalLen_cons]
        exact Nat.add_le_add_left ih _

theorem accumAdvance_len_lt {v : V} {l : List (List (V × Int))}
    (h : ∃ s ∈ l, ∃ n tl, s = (v, n) :: tl) :
    totalLen (accumAdvance v l).2 < totalLen l := by
  induction l with
  | nil => obtain ⟨s, hs, _⟩ := h; cases hs
  | cons s rest ih =>
    obtain ⟨s', hs', n', tl', he⟩ := h
    rcases List.mem_cons.mp hs' with heq | hmem
    · subst heq; subst he
      have hle := accumAdvance_len_le v rest
      simp [accumAdvance, totalLen_cons]
      omega
    · cases s with
      | nil =>
        simp only [accumAdvance, totalLen_cons]
        have := ih ⟨s', hmem, n', tl', he⟩
        omega
      | cons p tl =>
        obtain ⟨w, n⟩ := p
        have := ih ⟨s', hmem, n', tl', he⟩
        by_cases hw : w = v
        · simp only [accumAdvance, if_pos hw, totalLen_cons, List.length_cons]
          omega
        · simp only [accumAdvance, if_neg hw, totalLen_cons]
          omega

theorem accumAdvance_weight_eq (v : V) (l : List (List (V × Int))) :
    (accumAdvance v l).1 + sumWeights v (accumAdvance v l).2 =
      sumWeights v l := by
  induction l with
  | nil => simp [accumAdvance, sumWeights_nil]
  | cons s rest ih =>
    cases s with
    | nil => simpa [accumAdvance, sumWeights_cons, weight_nil] using ih
    | cons p tl =>
      obtain ⟨w, n⟩ := p
      by_cases hw : w = v
      · simp only [accumAdvance, if_pos hw, sumWeights_cons]
        rw [weight_cons, if_pos hw]
        omega
      · simp only [accumAdvance, if_neg hw, sumWeights_cons]
        omega

theorem accumAdvance_weight_ne {u v : V} (hne : u ≠ v)
    (l : List (List (V × Int))) :
    sumWeights u (accumAdvance v l).2 = sumWeights u l := by
  induction l with
  | nil => rfl
  | cons s rest ih =>
    cases s with
    | nil => simpa [accumAdvance, sumWeights_cons] using ih
    | cons p tl =>
      obtain ⟨w, n⟩ := p
      by_cases hw : w = v
      · simp only [accumAdvance, if_pos hw, sumWeights_cons]
        rw [weight_cons_of_ne (fun hc => hne (hc.symm.trans hw))]
        omega
      · simp only [accumAdvance, if_neg hw, sumWeights_cons]
        omega

theorem accumAdvance_mem {v : V} {l : List (List (V × Int))} :
    ∀ s' ∈ (accumAdvance v l).2, ∀ p ∈ s', ∃ s ∈ l, p ∈ s := by
  induction l with
  | nil => intro s' hs'; cases hs'
  | cons s rest ih =>
    intro s' hs' p hp
    cases s with
    | nil =>
      simp only [accumAdvance] at hs'
      rcases List.mem_cons.mp hs' with heq | hmem
      · subst heq; cases hp
      · obtain ⟨s0, hs0, hps0⟩ := ih s' hmem p hp
        exact ⟨s0, List.mem_cons_of_mem _ hs0, hps0⟩
    | cons q tl =>
      obtain ⟨w, n⟩ := q
      by_cases hw : w = v
      · simp only [accumAdvance, if_pos hw] at hs'
        rcases List.mem_cons.mp hs' with heq | hmem
        · exact ⟨(w, n) :: tl, List.mem_cons_self _ _,
            List.mem_cons_of_mem _ (heq ▸ hp)⟩
        · obtain ⟨s0, hs0, hps0⟩ := ih s' hmem p hp
          exact ⟨s0, List.mem_cons_of_mem _ hs0, hps0⟩
      · simp only [accumAdvance, if_neg hw] at hs'
        rcases List.mem_cons.mp hs' with heq | hmem
        · exact ⟨(w, n) :: tl, List.mem_cons_self _ _, heq ▸ hp⟩
        · obtain ⟨s0, hs0, hps0⟩ := ih s' hmem p hp
          exact ⟨s0, List.mem_cons_of_mem _ hs0, hps0⟩

theorem accumAdvance_coalesced {v : V} {l : List (List (V × Int))}
    (h : ∀ s ∈ l, Coalesced s) :
    ∀ s' ∈ (accumAdvance v l).2, Coalesced s' := by
  induction l with
  | nil => intro s' hs'; cases hs'
  | cons s rest ih =>
    intro s' hs'
    have hrest : ∀ s ∈ rest, Coalesced s :=
      fun s0 hs0 => h s0 (List.mem_cons_of_mem _ hs0)
    cases s with
    | nil =>
      simp only [accumAdvance] at hs'
      rcases List.mem_cons.mp hs' with heq | hmem
      · subst heq; exact coalesced_nil
      · exact ih hrest s' hmem
    | cons q tl =>
      obtain ⟨w, n⟩ := q
      by_cases hw : w = v
      · simp only [accumAdvance, if_pos hw] at hs'
        rcases List.mem_cons.mp hs' with heq | hmem
        · subst heq
          exact coalesced_tail (h _ (List.mem_cons_self _ _))
        · exact ih hrest s' hmem
      · simp only [accumAdvance, if_neg hw] at hs'
        rcases List.mem_cons.mp hs' with heq | hmem
        · subst heq; exact h _ (List.mem_cons_self _ _)
        · exact ih hrest s' hmem

theorem accumAdvance_gt {v : V} {l : List (List (V × Int))}
    (hco : ∀ s ∈ l, Coalesced s)
    (hge : ∀ w n tl, ((w, n) :: tl) ∈ l → v ≤ w) :
    ∀ s' ∈ (accumAdvance v l).2, ∀ p ∈ s', v < p.1 := by
  induction l with
  | nil => intro s' hs'; cases hs'
  | cons s rest ih =>
    intro s' hs' p hp
    have hrestco : ∀ s ∈ rest, Coalesced s :=
      fun s0 hs0 => hco s0 (List.mem_cons_of_mem _ hs0)
    have hrestge : ∀ w n tl, ((w, n) :: tl) ∈ rest → v ≤ w :=
      fun w n tl hm => hge w n tl (List.mem_cons_of_mem _ hm)
    cases s with
    | nil =>
      simp only [accumAdvance] at hs'
      rcases List.mem_cons.mp hs' with heq | hmem
      · subst heq; cases hp
      · exact ih hrestco hrestge s' hmem p hp
    | cons q tl =>
      obtain ⟨w, n⟩ := q
      by_cases hw : w = v
      · simp only [accumAdvance, if_pos hw] at hs'
        rcases List.mem_cons.mp hs' with heq | hmem
        · subst heq
          have := chain_lt_head (hco _ (List.mem_cons_self _ _)).1 p hp
          rw [hw] at this
          exact this
        · exact ih hrestco hrestge s' hmem p hp
      · simp only [accumAdvance, if_neg hw] at hs'
        rcases List.mem_cons.mp hs' with heq | hmem
        · subst heq
          have hvw : v < w :=
            lt_of_le_of_ne (hge w n tl (List.mem_cons_self _ _))
              (fun hc => hw hc.symm)
          rcases List.mem_cons.mp hp with hpe | hpm
          · rw [hpe]; exact hvw
          · exact lt_trans hvw
              (chain_lt_head (hco _ (List.mem_cons_self _ _)).1 p hpm)
        · exact ih hrestco hrestge s' hmem p hp

/-! ### `mergeCore` and `merge` -/

theorem mergeCore_append (fuel : Nat) :
    ∀ (slices : List (List (V × Int))) (target : List (V × Int)),
      mergeCore fuel slices target = target ++ mergeCore fuel slices [] := by
  induction fuel with
  | zero =>
    intro slices target
    match slices with
    | [] => simp [mergeCore]
    | [s] => simp [mergeCore]
    | s₀ :: s₁ :: rest => simp [mergeCore]
  | succ fuel ih =>
    intro slices target
    match slices with
    | [] => simp [mergeCore]
    | [s] => simp [mergeCore]
    | [] :: s₁ :: rest => simp [mergeCore]
    | ((v₀, w₀) :: tl₀) :: s₁ :: rest =>
      simp only [mergeCore]
      rw [ih, ih ((accumAdvance (minHead v₀ (s₁ :: rest))
        (((v₀, w₀) :: tl₀) :: s₁ :: rest)).2.filter
          (fun s => decide (0 < s.length)))
        (if (accumAdvance (minHead v₀ (s₁ :: rest))
          (((v₀, w₀) :: tl₀) :: s₁ :: rest)).1 ≠ 0 then
            [] ++ [(minHead v₀ (s₁ :: rest), (accumAdvance
              (minHead v₀ (s₁ :: rest))
              (((v₀, w₀) :: tl₀) :: s₁ :: rest)).1)] else [])]
      by_cases hc : (accumAdvance (minHead v₀ (s₁ :: rest))
          (((v₀, w₀) :: tl₀) :: s₁ :: rest)).1 ≠ 0
      · simp [hc]
      · simp [hc]

theorem mem_filter_ne_nil {l : List (List (V × Int))} :
    ∀ s ∈ l.filter (fun s => decide (0 < s.length)), s ≠ [] := by
  intro s hs
  have := (List.mem_filter.mp hs).2
  simp only [decide_eq_true_eq] at this
  exact List.ne_nil_of_length_pos this

/-- In the main loop, the minimum leading value is the head of some
slice. -/
theorem minHead_head_exists (v₀ : V) (w₀ : Int) (tl₀ : List (V × Int))
    (rest : List (List (V × Int))) :
    ∃ s ∈ ((v₀, w₀) :: tl₀) :: rest, ∃ n tl,
      s = (minHead v₀ rest, n) :: tl := by
  rcases minHead_mem rest v₀ with hm | ⟨s, hs, n, tl, he⟩
  · exact ⟨(v₀, w₀) :: tl₀, List.mem_cons_self _ _, w₀, tl₀, by rw [hm]⟩
  · exact ⟨s, List.mem_cons_of_mem _ hs, n, tl, he⟩

theorem mergeCore_weight (fuel : Nat) :
    ∀ (slices : List (List (V × Int))), (∀ s ∈ slices, s ≠ []) →
      totalLen slices ≤ fuel → ∀ u,
      weight u (mergeCore fuel slices []) = sumWeights u slices := by
  induction fuel with
  | zero =>
    intro slices h1 hf u
    match slices with
    | [] => simp [mergeCore, weight_nil, sumWeights_nil]
    | [s] => simp [mergeCore, sumWeights_cons, sumWeights_nil]
    | s₀ :: s₁ :: rest =>
      exfalso
      rw [totalLen_cons] at hf
      exact h1 s₀ (List.mem_cons_self _ _) (List.eq_nil_of_length_eq_zero
        (Nat.le_zero.mp (le_trans (Nat.le_add_right _ _) hf)))
  | succ fuel ih =>
    intro slices h1 hf u
    match slices with
    | [] => simp [mergeCore, weight_nil, sumWeights_nil]
    | [s] => simp [mergeCore, sumWeights_cons, sumWeights_nil]
    | [] :: s₁ :: rest =>
      exact absurd rfl (h1 [] (List.mem_cons_self _ _))
    | ((v₀, w₀) :: tl₀) :: s₁ :: rest =>
      have hex := minHead_head_exists v₀ w₀ tl₀ (s₁ :: rest)
      have hlt := accumAdvance_len_lt hex
      have hfle : totalLen ((accumAdvance (minHead v₀ (s₁ :: rest))
          (((v₀, w₀) :: tl₀) :: s₁ :: rest)).2.filter
            (fun s => decide (0 < s.length))) ≤ fuel := by
        have := totalLen_filter_le (accumAdvance (minHead v₀ (s₁ :: rest))
          (((v₀, w₀) :: tl₀) :: s₁ :: rest)).2
        omega
      simp only [mergeCore]
      rw [mergeCore_append]
      rw [weight_append]
      rw [ih _ (mem_filter_ne_nil) hfle u, sumWeights_filter]
      by_cases hu : u = minHead v₀ (s₁ :: rest)
      · rw [hu]
        have hw := accumAdvance_weight_eq (minHead v₀ (s₁ :: rest))
          (((v₀, w₀) :: tl₀) :: s₁ :: rest)
        by_cases hc : (accumAdvance (minHead v₀ (s₁ :: rest))
            (((v₀, w₀) :: tl₀) :: s₁ :: rest)).1 ≠ 0
        · rw [if_pos hc, List.nil_append, weight_single]
          omega
        · rw [if_neg hc, weight_nil]
          push_neg at hc
          omega
      · have hw := accumAdvance_weight_ne hu
          (((v₀, w₀) :: tl₀) :: s₁ :: rest)
        by_cases hc : (accumAdvance (minHead v₀ (s₁ :: rest))
            (((v₀, w₀) :: tl₀) :: s₁ :: rest)).1 ≠ 0
        · rw [if_pos hc, List.nil_append, weight_single_ne hu]
          omega
        · rw [if_neg hc, weight_nil]
          omega

theorem mergeCore_coalesced_occurs (fuel : Nat) :
    ∀ (slices : List (List (V × Int))), (∀ s ∈ slices, s ≠ []) →
      (∀ s ∈ slices, Coalesced s) → totalLen slices ≤ fuel →
      Coalesced (mergeCore fuel slices []) ∧
        ∀ p ∈ mergeCore fuel slices [], OccursIn p.1 slices := by
  induction fuel with
  | zero =>
    intro slices h1 h2 hf
    match slices with
    | [] => exact ⟨coalesced_nil, fun p hp => absurd hp (by simp [mergeCore])⟩
    | [s] =>
      refine ⟨by simpa [mergeCore] using h2 s (List.mem_cons_self _ _), ?_⟩
      intro p hp
      simp only [mergeCore, List.nil_append] at hp
      exact ⟨s, List.mem_cons_self _ _, p, hp, rfl⟩
    | s₀ :: s₁ :: rest =>
      exfalso
      rw [totalLen_cons] at hf
      exact h1 s₀ (List.mem_cons_self _ _) (List.eq_nil_of_length_eq_zero
        (Nat.le_zero.mp (le_trans (Nat.le_add_right _ _) hf)))
  | succ fuel ih =>
    intro slices h1 h2 hf
    match slices with
    | [] => exact ⟨coalesced_nil, fun p hp => absurd hp (by simp [mergeCore])⟩
    | [s] =>
      refine ⟨by simpa [mergeCore] using h2 s (List.mem_cons_self _ _), ?_⟩
      intro p hp
      simp only [mergeCore, List.nil_append] at hp
      exact ⟨s, List.mem_cons_self _ _, p, hp, rfl⟩
    | [] :: s₁ :: rest =>
      exact absurd rfl (h1 [] (List.mem_cons_self _ _))
    | ((v₀, w₀) :: tl₀) :: s₁ :: rest =>
      have hex := minHead_head_exists v₀ w₀ tl₀ (s₁ :: rest)
      have hlt := accumAdvance_len_lt hex
      have hfle : totalLen ((accumAdvance (minHead v₀ (s₁ :: rest))
          (((v₀, w₀) :: tl₀) :: s₁ :: rest)).2.filter
            (fun s => decide (0 < s.length))) ≤ fuel := by
        have := totalLen_filter_le (accumAdvance (minHead v₀ (s₁ :: rest))
          (((v₀, w₀) :: tl₀) :: s₁ :: rest)).2
        omega
      have hco' : ∀ s ∈ (accumAdvance (minHead v₀ (s₁ :: rest))
          (((v₀, w₀) :: tl₀) :: s₁ :: rest)).2.filter
            (fun s => decide (0 < s.length)), Coalesced s := by
        intro s hs
        exact accumAdvance_coalesced h2 s (List.mem_filter.mp hs).1
      obtain ⟨ihc, iho⟩ := ih _ (mem_filter_ne_nil) hco' hfle
      have hge : ∀ w n tl, ((w, n) :: tl) ∈
          ((v₀, w₀) :: tl₀) :: s₁ :: rest → minHead v₀ (s₁ :: rest) ≤ w := by
        intro w n tl hm
        rcases List.mem_cons.mp hm with heq | hmem
        · have : w = v₀ := by
            have := congrArg (fun l => List.head? l) heq
            simp at this
            exact this.1
          rw [this]
          exact minHead_le _ v₀
        · exact minHead_le_head v₀ w n tl hmem
      have hgt := accumAdvance_gt h2 hge
      have hXgt : ∀ p ∈ mergeCore fuel ((accumAdvance
          (minHead v₀ (s₁ :: rest))
          (((v₀, w₀) :: tl₀) :: s₁ :: rest)).2.filter
            (fun s => decide (0 < s.length))) [],
          minHead v₀ (s₁ :: rest) < p.1 := by
        intro p hp
        obtain ⟨s', hs', q, hq, hqe⟩ := iho p hp
        have := hgt s' (List.mem_filter.mp hs').1 q hq
        rw [hqe] at this
        exact this
      have hXocc : ∀ p ∈ mergeCore fuel ((accumAdvance
          (minHead v₀ (s₁ :: rest))
          (((v₀, w₀) :: tl₀) :: s₁ :: rest)).2.filter
            (fun s => decide (0 < s.length))) [],
          OccursIn p.1 (((v₀, w₀) :: tl₀) :: s₁ :: rest) := by
        intro p hp
        obtain ⟨s', hs', q, hq, hqe⟩ := iho p hp
        obtain ⟨s0, hs0, hq0⟩ :=
          accumAdvance_mem s' (List.mem_filter.mp hs').1 q hq
        exact ⟨s0, hs0, q, hq0, hqe⟩
      simp only [mergeCore]
      rw [mergeCore_append]
      by_cases hc : (accumAdvance (minHead v₀ (s₁ :: rest))
          (((v₀, w₀) :: tl₀) :: s₁ :: rest)).1 ≠ 0
      · rw [if_pos hc, List.nil_append, List.singleton_append]
        constructor
        · constructor
          · rw [List.chain'_cons']
            refine ⟨?_, ihc.1⟩
            intro y hy
            exact hXgt y (List.mem_of_mem_head? hy)
          · intro p hp
            rcases List.mem_cons.mp hp with heq | hmem
            · rw [heq]; exact hc
            · exact ihc.2 p hmem
        · intro p hp
          rcases List.mem_cons.mp hp with heq | hmem
          · obtain ⟨s, hs, n, tl, he⟩ := hex
            exact ⟨s, hs, (minHead v₀ (s₁ :: rest), n),
              (by rw [he]; exact List.mem_cons_self _ _), (by rw [heq])⟩
          · exact hXocc p hmem
      · rw [if_neg hc]
        exact ⟨ihc, hXocc⟩

theorem merge_append_eq (slices : List (List (V × Int)))
    (target : List (V × Int)) :
    merge slices target = target ++ merge slices [] :=
  mergeCore_append _ _ _

theorem merge_weight (slices : List (List (V × Int))) (u : V) :
    weight u (merge slices []) = sumWeights u slices := by
  unfold merge
  rw [mergeCore_weight _ _ mem_filter_ne_nil (totalLen_filter_le slices) u,
    sumWeights_filter]

theorem merge_coalesced (slices : List (List (V × Int)))
    (h2 : ∀ s ∈ slices, Coalesced s) : Coalesced (merge slices []) := by
  unfold merge
  exact (mergeCore_coalesced_occurs _ _ mem_filter_ne_nil
    (fun s hs => h2 s (List.mem_filter.mp hs).1)
    (totalLen_filter_le slices)).1

theorem merge_single (s : List (V × Int)) (target : List (V × Int))
    (h : s ≠ []) : merge [s] target = target ++ s := by
  have hl : 0 < s.length := List.length_pos.mpr h
  unfold merge
  simp [List.filter_cons, hl, mergeCore]

/-! ### `coalesceRuns`, `sortPairs`, `coalesce` -/

theorem chain_le_head {p : V × Int} {l : List (V × Int)}
    (h : List.Chain' (fun a b : V × Int => a.1 ≤ b.1) (p :: l)) :
    ∀ q ∈ l, p.1 ≤ q.1 := by
  induction l generalizing p with
  | nil => intro q hq; cases hq
  | cons r t ih =>
    intro q hq
    rw [List.chain'_cons] at h
    rcases List.mem_cons.mp hq with hq | hq
    · exact hq ▸ h.1
    · exact le_trans h.1 (ih h.2 q hq)

theorem weight_emit (u v : V) (w : Int) :
    weight u (if w = 0 then [] else [(v, w)]) =
      if v = u then w else 0 := by
  by_cases hw : w = 0
  · subst hw
    rw [if_pos rfl, weight_nil]
    by_cases hv : v = u
    · rw [if_pos hv]
    · rw [if_neg hv]
  · rw [if_neg hw, weight_cons, weight_nil, add_zero]

theorem coalesceAux_weight (u : V) :
    ∀ (l : List (V × Int)) (v : V) (w : Int),
      weight u (coalesceAux v w l) = weight u ((v, w) :: l) := by
  intro l
  induction l with
  | nil =>
    intro v w
    show weight u (if w = 0 then [] else [(v, w)]) = weight u [(v, w)]
    rw [weight_emit, weight_cons, weight_nil, add_zero]
  | cons q rest ih =>
    intro v w
    obtain ⟨v', w'⟩ := q
    by_cases hv : v' = v
    · simp only [coalesceAux, if_pos hv]
      rw [ih]
      simp only [weight_cons, hv]
      by_cases hu : v = u
      · simp [hu]; ring
      · simp [hu]
    · simp only [coalesceAux, if_neg hv]
      rw [weight_append, ih, weight_emit]
      simp only [weight_cons]

theorem coalesceAux_coalesced :
    ∀ (l : List (V × Int)) (v : V) (w : Int),
      List.Chain' (fun a b : V × Int => a.1 ≤ b.1) l →
      (∀ q ∈ l, v ≤ q.1) →
      Coalesced (coalesceAux v w l) ∧ ∀ p ∈ coalesceAux v w l, v ≤ p.1 := by
  intro l
  induction l with
  | nil =>
    intro v w _ _
    show Coalesced (if w = 0 then [] else [(v, w)]) ∧
      ∀ p ∈ (if w = 0 then [] else [(v, w)]), v ≤ p.1
    by_cases hw : w = 0
    · rw [if_pos hw]
      exact ⟨coalesced_nil, fun p hp => absurd hp (List.not_mem_nil p)⟩
    · rw [if_neg hw]
      refine ⟨⟨List.chain'_singleton _, ?_⟩, ?_⟩
      · intro p hp
        rw [List.mem_singleton.mp hp]
        exact hw
      · intro p hp
        rw [List.mem_singleton.mp hp]
  | cons q rest ih =>
    intro v w hs hb
    obtain ⟨v', w'⟩ := q
    have hsrest : List.Chain' (fun a b : V × Int => a.1 ≤ b.1) rest :=
      (List.chain'_cons'.mp hs).2
    have hbrest : ∀ r ∈ rest, v' ≤ r.1 := chain_le_head hs
    have hvv' : v ≤ v' := hb (v', w') (List.mem_cons_self _ _)
    by_cases hv : v' = v
    · simp only [coalesceAux, if_pos hv]
      exact ih v (w + w') hsrest (fun r hr => hv ▸ hbrest r hr)
    · simp only [coalesceAux, if_neg hv]
      obtain ⟨hc, hbd⟩ := ih v' w' hsrest hbrest
      by_cases hw : w = 0
      · rw [if_pos hw, List.nil_append]
        exact ⟨hc, fun p hp => le_trans hvv' (hbd p hp)⟩
      · rw [if_neg hw, List.singleton_append]
        have hlt : v < v' := lt_of_le_of_ne hvv' (fun hc2 => hv hc2.symm)
        refine ⟨⟨?_, ?_⟩, ?_⟩
        · rw [List.chain'_cons']
          refine ⟨?_, hc.1⟩
          intro y hy
          exact lt_of_lt_of_le hlt (hbd y (List.mem_of_mem_head? hy))
        · intro p hp
          rcases List.mem_cons.mp hp with heq | hmem
          · rw [heq]; exact hw
          · exact hc.2 p hmem
        · intro p hp
          rcases List.mem_cons.mp hp with heq | hmem
          · rw [heq]
          · exact le_trans hvv' (hbd p hmem)

theorem coalesceRuns_weight (u : V) (l : List (V × Int)) :
    weight u (coalesceRuns l) = weight u l := by
  cases l with
  | nil => rfl
  | cons q rest =>
    obtain ⟨v, w⟩ := q
    exact coalesceAux_weight u rest v w

theorem coalesceRuns_coalesced {l : List (V × Int)}
    (h : List.Chain' (fun a b : V × Int => a.1 ≤ b.1) l) :
    Coalesced (coalesceRuns l) := by
  cases l with
  | nil => exact coalesced_nil
  | cons q rest =>
    obtain ⟨v, w⟩ := q
    exact (coalesceAux_coalesced rest v w (List.chain'_cons'.mp h).2
      (chain_le_head h)).1

theorem insertPair_weight (u : V) (p : V × Int) :
    ∀ l, weight u (insertPair p l) = weight u (p :: l) := by
  intro l
  induction l with
  | nil => rfl
  | cons q rest ih =>
    by_cases hpq : p.1 ≤ q.1
    · simp only [insertPair, if_pos hpq]
    · simp only [insertPair, if_neg hpq]
      rw [weight_cons, ih, weight_cons, weight_cons (l := q :: rest),
        weight_cons]
      ring

theorem insertPair_head? (p : V × Int) :
    ∀ l, (insertPair p l).head? = some p ∨ (insertPair p l).head? = l.head? := by
  intro l
  cases l with
  | nil => exact Or.inl rfl
  | cons q rest =>
    by_cases hpq : p.1 ≤ q.1
    · simp only [insertPair, if_pos hpq]
      exact Or.inl rfl
    · simp only [insertPair, if_neg hpq]
      exact Or.inr rfl

theorem insertPair_sorted (p : V × Int) :
    ∀ l, List.Chain' (fun a b : V × Int => a.1 ≤ b.1) l →
      List.Chain' (fun a b : V × Int => a.1 ≤ b.1) (insertPair p l) := by
  intro l
  induction l with
  | nil => intro _; exact List.chain'_singleton _
  | cons q rest ih =>
    intro h
    by_cases hpq : p.1 ≤ q.1
    · simp only [insertPair, if_pos hpq]
      exact List.chain'_cons.mpr ⟨hpq, h⟩
    · simp only [insertPair, if_neg hpq]
      rw [List.chain'_cons']
      refine ⟨?_, ih (List.chain'_cons'.mp h).2⟩
      intro y hy
      rcases insertPair_head? p rest with hh | hh
      · rw [hh] at hy
        have hyp : y = p := by
          have := hy
          simp at this
          exact this.symm
        rw [hyp]
        exact le_of_not_le hpq
      · rw [hh] at hy
        exact (List.chain'_cons'.mp h).1 y hy

theorem sortPairs_weight (u : V) (l : List (V × Int)) :
    weight u (sortPairs l) = weight u l := by
  induction l with
  | nil => rfl
  | cons p rest ih =>
    simp only [sortPairs]
    rw [insertPair_weight, weight_cons, weight_cons, ih]

theorem sortPairs_sorted (l : List (V × Int)) :
    List.Chain' (fun a b : V × Int => a.1 ≤ b.1) (sortPairs l) := by
  induction l with
  | nil => exact List.chain'_nil
  | cons p rest ih => exact insertPair_sorted p _ ih

/-- The spec-modelled `coalesce` is correct: its output is coalesced and
preserves weights. -/
theorem coalesce_spec (l : List (V × Int)) :
    Coalesced (coalesce l) ∧ ∀ u, weight u (coalesce l) = weight u l := by
  refine ⟨coalesceRuns_coalesced (sortPairs_sorted l), ?_⟩
  intro u
  rw [coalesce, coalesceRuns_weight, sortPairs_weight]

/-! ### `takeMinHead` and `mergeStreams` -/

theorem eq_nil_of_totalLen_zero {l : List (List (V × Int))}
    (h : totalLen l = 0) : ∀ s ∈ l, s = [] := by
  induction l with
  | nil => intro s hs; cases hs
  | cons s0 rest ih =>
    rw [totalLen_cons] at h
    intro s hs
    rcases List.mem_cons.mp hs with heq | hmem
    · rw [heq]
      exact List.eq_nil_of_length_eq_zero (by omega)
    · exact ih (by omega) s hmem

theorem sumWeights_eq_zero_of_totalLen_zero {l : List (List (V × Int))}
    (h : totalLen l = 0) (u : V) : sumWeights u l = 0 := by
  induction l with
  | nil => rfl
  | cons s rest ih =>
    rw [totalLen_cons] at h
    rw [sumWeights_cons,
      List.eq_nil_of_length_eq_zero (l := s) (by omega), weight_nil,
      ih (by omega), add_zero]

theorem takeMinHead_none {l : List (List (V × Int))}
    (h : takeMinHead l = none) : totalLen l = 0 := by
  induction l with
  | nil => rfl
  | cons s rest ih =>
    cases s with
    | nil =>
      rcases he : takeMinHead rest with _ | ⟨q, rs⟩
      · rw [totalLen_cons, ih he]
        rfl
      · simp only [takeMinHead, he, Option.map_some'] at h
        exact Option.noConfusion h
    | cons hd tl =>
      exfalso
      rcases he : takeMinHead rest with _ | ⟨q, rs⟩
      · simp only [takeMinHead, he] at h
        exact Option.noConfusion h
      · simp only [takeMinHead, he] at h
        by_cases hq : q.1 < hd.1
        · rw [if_pos hq] at h; cases h
        · rw [if_neg hq] at h; cases h

theorem takeMinHead_sum {l : List (List (V × Int))} :
    ∀ {p : V × Int} {rest' : List (List (V × Int))},
    takeMinHead l = some (p, rest') →
    totalLen rest' + 1 = totalLen l ∧ ∀ u,
      (if p.1 = u then p.2 else 0) + sumWeights u rest' = sumWeights u l := by
  induction l with
  | nil => intro p rest' h; cases h
  | cons s rest ih =>
    intro p rest' h
    cases s with
    | nil =>
      rcases he : takeMinHead rest with _ | ⟨q, rs⟩
      · simp only [takeMinHead, he, Option.map_none'] at h
        exact Option.noConfusion h
      · simp only [takeMinHead, he, Option.map_some'] at h
        obtain ⟨ihA, ihB⟩ := ih he
        cases h
        constructor
        · rw [totalLen_cons, totalLen_cons]
          simpa using ihA
        · intro u
          rw [sumWeights_cons, sumWeights_cons, weight_nil]
          have := ihB u
          omega
    | cons hd tl =>
      rcases he : takeMinHead rest with _ | ⟨q, rs⟩
      · simp only [takeMinHead, he] at h
        cases h
        constructor
        · rw [totalLen_cons, totalLen_cons, List.length_cons]
          omega
        · intro u
          rw [sumWeights_cons, sumWeights_cons, weight_cons]
          omega
      · simp only [takeMinHead, he] at h
        obtain ⟨ihA, ihB⟩ := ih he
        by_cases hq : q.1 < hd.1
        · rw [if_pos hq] at h
          cases h
          constructor
          · rw [totalLen_cons, totalLen_cons]
            omega
          · intro u
            rw [sumWeights_cons, sumWeights_cons]
            have := ihB u
            omega
        · rw [if_neg hq] at h
          cases h
          constructor
          · rw [totalLen_cons, totalLen_cons, List.length_cons]
            omega
          · intro u
            rw [sumWeights_cons, sumWeights_cons, weight_cons]
            omega

theorem takeMinHead_mem {l : List (List (V × Int))} :
    ∀ {p : V × Int} {rest' : List (List (V × Int))},
    takeMinHead l = some (p, rest') →
    (∃ s ∈ l, p ∈ s) ∧
      ∀ s' ∈ rest', ∀ q ∈ s', ∃ s ∈ l, q ∈ s := by
  induction l with
  | nil => intro p rest' h; cases h
  | cons s rest ih =>
    intro p rest' h
    cases s with
    | nil =>
      rcases he : takeMinHead rest with _ | ⟨q, rs⟩
      · simp only [takeMinHead, he, Option.map_none'] at h
        exact Option.noConfusion h
      · simp only [takeMinHead, he, Option.map_some'] at h
        obtain ⟨ihC, ihD⟩ := ih he
        cases h
        refine ⟨?_, ?_⟩
        · obtain ⟨s0, hs0, hp⟩ := ihC
          exact ⟨s0, List.mem_cons_of_mem _ hs0, hp⟩
        · intro s' hs' r hr
          rcases List.mem_cons.mp hs' with heq | hmem
          · rw [heq] at hr; cases hr
          · obtain ⟨s0, hs0, hr0⟩ := ihD s' hmem r hr
            exact ⟨s0, List.mem_cons_of_mem _ hs0, hr0⟩
    | cons hd tl =>
      rcases he : takeMinHead rest with _ | ⟨q, rs⟩
      · simp only [takeMinHead, he] at h
        injection h with h1
        injection h1 with hp hr2
        subst hp
        subst hr2
        refine ⟨⟨hd :: tl, List.mem_cons_self _ _, List.mem_cons_self _ _⟩, ?_⟩
        intro s' hs' r hr
        rcases List.mem_cons.mp hs' with heq | hmem
        · exact ⟨hd :: tl, List.mem_cons_self _ _,
            List.mem_cons_of_mem _ (heq ▸ hr)⟩
        · exact ⟨s', List.mem_cons_of_mem _ hmem, hr⟩
      · simp only [takeMinHead, he] at h
        obtain ⟨ihC, ihD⟩ := ih he
        by_cases hq : q.1 < hd.1
        · rw [if_pos hq] at h
          injection h with h1
          injection h1 with hp hr2
          subst hp
          subst hr2
          refine ⟨?_, ?_⟩
          · obtain ⟨s0, hs0, hp⟩ := ihC
            exact ⟨s0, List.mem_cons_of_mem _ hs0, hp⟩
          · intro s' hs' r hr
            rcases List.mem_cons.mp hs' with heq | hmem
            · exact ⟨hd :: tl, List.mem_cons_self _ _, heq ▸ hr⟩
            · obtain ⟨s0, hs0, hr0⟩ := ihD s' hmem r hr
              exact ⟨s0, List.mem_cons_of_mem _ hs0, hr0⟩
        · rw [if_neg hq] at h
          injection h with h1
          injection h1 with hp hr2
          subst hp
          subst hr2
          refine ⟨⟨hd :: tl, List.mem_cons_self _ _, List.mem_cons_self _ _⟩,
            ?_⟩
          intro s' hs' r hr
          rcases List.mem_cons.mp hs' with heq | hmem
          · exact ⟨hd :: tl, List.mem_cons_self _ _,
              List.mem_cons_of_mem _ (heq ▸ hr)⟩
          · exact ⟨s', List.mem_cons_of_mem _ hmem, hr⟩

theorem takeMinHead_min {l : List (List (V × Int))} :
    ∀ {p : V × Int} {rest' : List (List (V × Int))},
    takeMinHead l = some (p, rest') →
    (∀ s ∈ l, List.Chain' (fun a b : V × Int => a.1 ≤ b.1) s) →
    ∀ s ∈ l, ∀ r ∈ s, p.1 ≤ r.1 := by
  induction l with
  | nil => intro p rest' h; cases h
  | cons s rest ih =>
    intro p rest' h hs
    cases s with
    | nil =>
      rcases he : takeMinHead rest with _ | ⟨q, rs⟩
      · simp only [takeMinHead, he, Option.map_none'] at h
        exact Option.noConfusion h
      · simp only [takeMinHead, he, Option.map_some'] at h
        cases h
        intro s0 hs0 r hr
        rcases List.mem_cons.mp hs0 with heq | hmem
        · rw [heq] at hr; cases hr
        · exact ih he (fun s1 hs1 => hs s1 (List.mem_cons_of_mem _ hs1))
            s0 hmem r hr
    | cons hd tl =>
      have hhd : ∀ r ∈ tl, hd.1 ≤ r.1 :=
        chain_le_head (hs (hd :: tl) (List.mem_cons_self _ _))
      rcases he : takeMinHead rest with _ | ⟨q, rs⟩
      · simp only [takeMinHead, he] at h
        cases h
        intro s0 hs0 r hr
        rcases List.mem_cons.mp hs0 with heq | hmem
        · rcases List.mem_cons.mp (heq ▸ hr) with hre | hrm
          · rw [hre]
          · exact hhd r hrm
        · rw [eq_nil_of_totalLen_zero (takeMinHead_none he) s0 hmem] at hr
          cases hr
      · simp only [takeMinHead, he] at h
        have ihm := ih he (fun s1 hs1 => hs s1 (List.mem_cons_of_mem _ hs1))
        by_cases hq : q.1 < hd.1
        · rw [if_pos hq] at h
          cases h
          intro s0 hs0 r hr
          rcases List.mem_cons.mp hs0 with heq | hmem
          · rcases List.mem_cons.mp (heq ▸ hr) with hre | hrm
            · rw [hre]; exact le_of_lt hq
            · exact le_trans (le_of_lt hq) (hhd r hrm)
          · exact ihm s0 hmem r hr
        · rw [if_neg hq] at h
          cases h
          intro s0 hs0 r hr
          rcases List.mem_cons.mp hs0 with heq | hmem
          · rcases List.mem_cons.mp (heq ▸ hr) with hre | hrm
            · rw [hre]
            · exact hhd r hrm
          · exact le_trans (le_of_not_lt hq) (ihm s0 hmem r hr)

theorem takeMinHead_sorted {l : List (List (V × Int))} :
    ∀ {p : V × Int} {rest' : List (List (V × Int))},
    takeMinHead l = some (p, rest') →
    (∀ s ∈ l, List.Chain' (fun a b : V × Int => a.1 ≤ b.1) s) →
    ∀ s' ∈ rest', List.Chain' (fun a b : V × Int => a.1 ≤ b.1) s' := by
  induction l with
  | nil => intro p rest' h; cases h
  | cons s rest ih =>
    intro p rest' h hs
    have hrest : ∀ s1 ∈ rest, List.Chain' (fun a b : V × Int => a.1 ≤ b.1) s1 :=
      fun s1 hs1 => hs s1 (List.mem_cons_of_mem _ hs1)
    cases s with
    | nil =>
      rcases he : takeMinHead rest with _ | ⟨q, rs⟩
      · simp only [takeMinHead, he, Option.map_none'] at h
        exact Option.noConfusion h
      · simp only [takeMinHead, he, Option.map_some'] at h
        cases h
        intro s' hs'
        rcases List.mem_cons.mp hs' with heq | hmem
        · rw [heq]; exact List.chain'_nil
        · exact ih he hrest s' hmem
    | cons hd tl =>
      have htl : List.Chain' (fun a b : V × Int => a.1 ≤ b.1) tl :=
        (List.chain'_cons'.mp (hs (hd :: tl) (List.mem_cons_self _ _))).2
      rcases he : takeMinHead rest with _ | ⟨q, rs⟩
      · simp only [takeMinHead, he] at h
        cases h
        intro s' hs'
        rcases List.mem_cons.mp hs' with heq | hmem
        · rw [heq]; exact htl
        · exact hrest s' hmem
      · simp only [takeMinHead, he] at h
        by_cases hq : q.1 < hd.1
        · rw [if_pos hq] at h
          cases h
          intro s' hs'
          rcases List.mem_cons.mp hs' with heq | hmem
          · rw [heq]; exact hs (hd :: tl) (List.mem_cons_self _ _)
          · exact ih he hrest s' hmem
        · rw [if_neg hq] at h
          cases h
          intro s' hs'
          rcases List.mem_cons.mp hs' with heq | hmem
          · rw [heq]; exact htl
          · exact hrest s' hmem


theorem mergeStreams_weight :
    ∀ (fuel : Nat) (l : List (List (V × Int))), totalLen l ≤ fuel →
      ∀ u, weight u (mergeStreams fuel l) = sumWeights u l := by
  intro fuel
  induction fuel with
  | zero =>
    intro l hf u
    rw [show mergeStreams 0 l = [] from rfl, weight_nil,
      sumWeights_eq_zero_of_totalLen_zero (Nat.le_zero.mp hf) u]
  | succ fuel ih =>
    intro l hf u
    simp only [mergeStreams]
    rcases he : takeMinHead l with _ | ⟨p, rest'⟩
    · rw [weight_nil,
        sumWeights_eq_zero_of_totalLen_zero (takeMinHead_none he) u]
    · obtain ⟨hA, hB⟩ := takeMinHead_sum he
      rw [weight_cons, ih rest' (by omega) u]
      have := hB u
      omega

theorem mergeStreams_mem :
    ∀ (fuel : Nat) (l : List (List (V × Int))),
      ∀ q ∈ mergeStreams fuel l, ∃ s ∈ l, q ∈ s := by
  intro fuel
  induction fuel with
  | zero => intro l q hq; cases hq
  | succ fuel ih =>
    intro l q hq
    simp only [mergeStreams] at hq
    rcases he : takeMinHead l with _ | ⟨p, rest'⟩
    · rw [he] at hq; cases hq
    · rw [he] at hq
      obtain ⟨hC, hD⟩ := takeMinHead_mem he
      rcases List.mem_cons.mp hq with heq | hmem
      · exact heq ▸ hC
      · obtain ⟨s', hs', hq'⟩ := ih rest' q hmem
        exact hD s' hs' q hq'

theorem mergeStreams_sorted :
    ∀ (fuel : Nat) (l : List (List (V × Int))),
      (∀ s ∈ l, List.Chain' (fun a b : V × Int => a.1 ≤ b.1) s) →
      List.Chain' (fun a b : V × Int => a.1 ≤ b.1) (mergeStreams fuel l) := by
  intro fuel
  induction fuel with
  | zero => intro l _; exact List.chain'_nil
  | succ fuel ih =>
    intro l hs
    simp only [mergeStreams]
    rcases he : takeMinHead l with _ | ⟨p, rest'⟩
    · exact List.chain'_nil
    · rw [List.chain'_cons']
      refine ⟨?_, ih rest' (takeMinHead_sorted he hs)⟩
      intro y hy
      have hym := mergeStreams_mem fuel rest' y
        (List.mem_of_mem_head? hy)
      obtain ⟨s', hs', hy'⟩ := hym
      obtain ⟨_, hD⟩ := takeMinHead_mem he
      obtain ⟨s0, hs0, hy0⟩ := hD s' hs' y hy'
      exact takeMinHead_min he hs s0 hs0 y hy0

/-! ### LUB closure -/

theorem addLubs_adds (lub : T → T → T) :
    ∀ (ps : List (T × T)) (acc : List T),
    ∃ adds, ps.foldl (fun acc p =>
        if lub p.1 p.2 ∈ acc then acc else acc ++ [lub p.1 p.2]) acc =
          acc ++ adds ∧
      adds.Nodup ∧ (∀ a ∈ adds, a ∉ acc) ∧
      (∀ a ∈ adds, ∃ p ∈ ps, a = lub p.1 p.2) := by
  intro ps
  induction ps with
  | nil =>
    intro acc
    exact ⟨[], by simp, List.nodup_nil,
      fun a ha => absurd ha (List.not_mem_nil a),
      fun a ha => absurd ha (List.not_mem_nil a)⟩
  | cons p ps' ih =>
    intro acc
    by_cases hmem : lub p.1 p.2 ∈ acc
    · obtain ⟨adds, heq, hnd, hni, hor⟩ := ih acc
      refine ⟨adds, ?_, hnd, hni, ?_⟩
      · simpa [List.foldl_cons, if_pos hmem] using heq
      · intro a ha
        obtain ⟨q, hq, he⟩ := hor a ha
        exact ⟨q, List.mem_cons_of_mem _ hq, he⟩
    · obtain ⟨adds', heq, hnd, hni, hor⟩ := ih (acc ++ [lub p.1 p.2])
      refine ⟨lub p.1 p.2 :: adds', ?_, ?_, ?_, ?_⟩
      · rw [List.foldl_cons, if_neg hmem, heq, List.append_assoc,
          List.singleton_append]
      · rw [List.nodup_cons]
        refine ⟨?_, hnd⟩
        intro hcl
        exact hni _ hcl (List.mem_append_right _ (List.mem_singleton_self _))
      · intro a ha
        rcases List.mem_cons.mp ha with heqa | hmema
        · rw [heqa]; exact hmem
        · intro hacc
          exact hni a hmema (List.mem_append_left _ hacc)
      · intro a ha
        rcases List.mem_cons.mp ha with heqa | hmema
        · exact ⟨p, List.mem_cons_self _ _, heqa⟩
        · obtain ⟨q, hq, he⟩ := hor a hmema
          exact ⟨q, List.mem_cons_of_mem _ hq, he⟩

theorem foldl_addLubs_fix (lub : T → T → T) :
    ∀ (ps : List (T × T)) (acc : List T),
    ps.foldl (fun acc p =>
      if lub p.1 p.2 ∈ acc then acc else acc ++ [lub p.1 p.2]) acc = acc →
    ∀ p ∈ ps, lub p.1 p.2 ∈ acc := by
  intro ps
  induction ps with
  | nil => intro acc _ p hp; cases hp
  | cons q ps' ih =>
    intro acc h p hp
    by_cases hmem : lub q.1 q.2 ∈ acc
    · rw [List.foldl_cons, if_pos hmem] at h
      rcases List.mem_cons.mp hp with heq | hmemp
      · rw [heq]; exact hmem
      · exact ih acc h p hmemp
    · exfalso
      rw [List.foldl_cons, if_neg hmem] at h
      obtain ⟨adds, heq, _, _, _⟩ := addLubs_adds lub ps' (acc ++ [lub q.1 q.2])
      rw [heq] at h
      have := congrArg List.length h
      simp [List.length_append] at this

theorem addLubs_spec (lub : T → T → T) (xs : List T) :
    ∃ adds, addLubs lub xs = xs ++ adds ∧
      adds.Nodup ∧ (∀ a ∈ adds, a ∉ xs) ∧
      (∀ a ∈ adds, ∃ u ∈ xs, ∃ v ∈ xs, a = lub u v) := by
  obtain ⟨adds, heq, hnd, hni, hor⟩ := addLubs_adds lub (xs.product xs) xs
  refine ⟨adds, heq, hnd, hni, ?_⟩
  intro a ha
  obtain ⟨p, hp, he⟩ := hor a ha
  obtain ⟨u, v⟩ := p
  have hp' : u ∈ xs ∧ v ∈ xs := List.mem_product.mp hp
  exact ⟨u, hp'.1, v, hp'.2, he⟩

theorem addLubs_eq_imp_closed {lub : T → T → T} {xs : List T}
    (h : addLubs lub xs = xs) : LubClosed lub xs := by
  intro a ha b hb
  have hab : (a, b) ∈ xs.product xs := List.mem_product.mpr ⟨ha, hb⟩
  exact foldl_addLubs_fix lub (xs.product xs) xs h (a, b) hab

theorem closeLoop_subset (lub : T → T → T) :
    ∀ (fuel : Nat) (xs : List T), xs ⊆ closeLoop lub fuel xs := by
  intro fuel
  induction fuel with
  | zero => intro xs; exact List.Subset.refl xs
  | succ fuel ih =>
    intro xs
    simp only [closeLoop]
    by_cases hstop : (addLubs lub xs).length = xs.length
    · rw [if_pos hstop]
      exact List.Subset.refl xs
    · rw [if_neg hstop]
      obtain ⟨adds, heq, _, _, _⟩ := addLubs_spec lub xs
      intro a ha
      exact ih (addLubs lub xs) (heq ▸ List.mem_append_left adds ha)

theorem subLubs_length (lub : T → T → T) :
    ∀ l : List T, (subLubs lub l).length = 2 ^ l.length - 1 := by
  intro l
  induction l with
  | nil => rfl
  | cons a rest ih =>
    simp only [subLubs, List.length_cons, List.length_append,
      List.length_map, ih]
    have : 0 < 2 ^ rest.length := pow_pos (by omega) _
    rw [pow_succ]
    omega

theorem subLubs_seed (lub : T → T → T) :
    ∀ (l : List T), ∀ x ∈ l, x ∈ subLubs lub l := by
  intro l
  induction l with
  | nil => intro x hx; cases hx
  | cons a rest ih =>
    intro x hx
    rcases List.mem_cons.mp hx with heq | hmem
    · rw [heq]; exact List.mem_cons_self _ _
    · exact List.mem_cons_of_mem _
        (List.mem_append_left _ (ih x hmem))

theorem subLubs_mem_iff (lub : T → T → T) (a : T) (rest : List T) (x : T) :
    x ∈ subLubs lub (a :: rest) ↔
      x = a ∨ x ∈ subLubs lub rest ∨
        ∃ u ∈ subLubs lub rest, x = lub a u := by
  simp only [subLubs, List.mem_cons, List.mem_append, List.mem_map]
  constructor
  · rintro (h | h | ⟨u, hu, he⟩)
    · exact Or.inl h
    · exact Or.inr (Or.inl h)
    · exact Or.inr (Or.inr ⟨u, hu, he.symm⟩)
  · rintro (h | h | ⟨u, hu, he⟩)
    · exact Or.inl h
    · exact Or.inr (Or.inl h)
    · exact Or.inr (Or.inr ⟨u, hu, he.symm⟩)

theorem subLubs_closed {lub : T → T → T}
    (hA : ∀ a b c, lub (lub a b) c = lub a (lub b c))
    (hC : ∀ a b, lub a b = lub b a)
    (hI : ∀ a, lub a a = a) :
    ∀ (l : List T), ∀ x ∈ subLubs lub l, ∀ y ∈ subLubs lub l,
      lub x y ∈ subLubs lub l := by
  have hAbsorb : ∀ a u, lub a (lub a u) = lub a u := by
    intro a u
    rw [← hA, hI]
  have hSwap : ∀ a u v, lub u (lub a v) = lub a (lub u v) := by
    intro a u v
    rw [hC u (lub a v), hA, hC v u]
  intro l
  induction l with
  | nil => intro x hx; cases hx
  | cons a rest ih =>
    intro x hx y hy
    rw [subLubs_mem_iff] at hx hy ⊢
    rcases hx with hxa | hxs | ⟨u, hu, hxu⟩
    · rcases hy with hya | hys | ⟨v, hv, hyv⟩
      · rw [hxa, hya]
        exact Or.inl (hI a)
      · rw [hxa]
        exact Or.inr (Or.inr ⟨y, hys, rfl⟩)
      · rw [hxa, hyv]
        exact Or.inr (Or.inr ⟨v, hv, hAbsorb a v⟩)
    · rcases hy with hya | hys | ⟨v, hv, hyv⟩
      · rw [hya]
        exact Or.inr (Or.inr ⟨x, hxs, hC x a⟩)
      · exact Or.inr (Or.inl (ih x hxs y hys))
      · rw [hyv]
        exact Or.inr (Or.inr ⟨lub x v, ih x hxs v hv, hSwap a x v⟩)
    · rcases hy with hya | hys | ⟨v, hv, hyv⟩
      · rw [hxu, hya]
        refine Or.inr (Or.inr ⟨u, hu, ?_⟩)
        rw [hC (lub a u) a, hAbsorb a u]
      · rw [hxu]
        refine Or.inr (Or.inr ⟨lub u y, ih u hu y hys, ?_⟩)
        rw [hA]
      · rw [hxu, hyv]
        refine Or.inr (Or.inr ⟨lub u v, ih u hu v hv, ?_⟩)
        rw [hA, hSwap a u v, hAbsorb]

theorem closeLoop_closed {lub : T → T → T}
    (hA : ∀ a b c, lub (lub a b) c = lub a (lub b c))
    (hC : ∀ a b, lub a b = lub b a)
    (hI : ∀ a, lub a a = a) :
    ∀ (fuel : Nat) (xs₀ adds : List T),
    adds.Nodup → (∀ a ∈ adds, a ∉ xs₀) →
    (∀ a ∈ adds, a ∈ subLubs lub xs₀) →
    2 ^ xs₀.length ≤ fuel + adds.length →
    LubClosed lub (closeLoop lub fuel (xs₀ ++ adds)) := by
  intro fuel
  induction fuel with
  | zero =>
    intro xs₀ adds hnd hni hsub hf
    exfalso
    have hsp := List.subperm_of_subset hnd hsub
    have hlen := hsp.length_le
    rw [subLubs_length] at hlen
    have : 0 < 2 ^ xs₀.length := pow_pos (by omega) _
    omega
  | succ fuel ih =>
    intro xs₀ adds hnd hni hsub hf
    simp only [closeLoop]
    obtain ⟨newAdds, heq, hnnd, hnni, hnor⟩ :=
      addLubs_spec lub (xs₀ ++ adds)
    by_cases hstop : (addLubs lub (xs₀ ++ adds)).length =
        (xs₀ ++ adds).length
    · rw [if_pos hstop]
      have hlen := congrArg List.length heq
      rw [hstop] at hlen
      simp only [List.length_append] at hlen
      have hnil : newAdds = [] :=
        List.eq_nil_of_length_eq_zero (by omega)
      rw [hnil, List.append_nil] at heq
      exact addLubs_eq_imp_closed heq
    · rw [if_neg hstop]
      have hnew1 : 1 ≤ newAdds.length := by
        by_contra hc
        push_neg at hc
        have hnil : newAdds = [] :=
          List.eq_nil_of_length_eq_zero (by omega)
        rw [hnil, List.append_nil] at heq
        exact hstop (congrArg List.length heq)
      have hsubx : ∀ a ∈ xs₀ ++ adds, a ∈ subLubs lub xs₀ := by
        intro a ha
        rcases List.mem_append.mp ha with h0 | h1
        · exact subLubs_seed lub xs₀ a h0
        · exact hsub a h1
      have hstep : LubClosed lub (closeLoop lub fuel
          (xs₀ ++ (adds ++ newAdds))) := by
        refine ih xs₀ (adds ++ newAdds) ?_ ?_ ?_ ?_
        · rw [List.nodup_append]
          refine ⟨hnd, hnnd, ?_⟩
          intro a ha hna
          exact hnni a hna (List.mem_append_right _ ha)
        · intro a ha
          rcases List.mem_append.mp ha with h1 | h2
          · exact hni a h1
          · intro hmem
            exact hnni a h2 (List.mem_append_left _ hmem)
        · intro a ha
          rcases List.mem_append.mp ha with h1 | h2
          · exact hsub a h1
          · obtain ⟨u, hu, v, hv, he⟩ := hnor a h2
            rw [he]
            exact subLubs_closed hA hC hI xs₀ u (hsubx u hu) v (hsubx v hv)
        · rw [List.length_append]
          omega
      rw [← List.append_assoc] at hstep
      rw [← heq] at hstep
      exact hstep

/-- The spec-modelled `close_under_lub` reaches its fixpoint: the result
is closed under `lub` whenever `lub` is a semilattice join. -/
theorem close_under_lub_closed {lub : T → T → T}
    (hA : ∀ a b c, lub (lub a b) c = lub a (lub b c))
    (hC : ∀ a b, lub a b = lub b a)
    (hI : ∀ a, lub a a = a) (xs : List T) :
    LubClosed lub (close_under_lub lub xs) := by
  have h := closeLoop_closed hA hC hI (2 ^ xs.length) xs []
    List.nodup_nil (fun a ha => absurd ha (List.not_mem_nil a))
    (fun a ha => absurd ha (List.not_mem_nil a)) (by simp)
  rw [List.append_nil] at h
  exact h

theorem close_under_lub_subset (lub : T → T → T) (xs : List T) :
    xs ⊆ close_under_lub lub xs :=
  closeLoop_subset lub (2 ^ xs.length) xs

/-! ### Key map and run-splitting infrastructure -/

theorem splitRun_spec (k : K) :
    ∀ ks : List K, (splitRun k ks).2 = ks.drop (splitRun k ks).1 ∧
      (splitRun k ks).1 ≤ ks.length ∧
      ∀ i, i < (splitRun k ks).1 → ks.get? i = some k := by
  intro ks
  induction ks with
  | nil => exact ⟨rfl, le_refl 0, fun i hi => absurd hi (Nat.not_lt_zero i)⟩
  | cons k' rest ih =>
    by_cases hk : k' = k
    · simp only [splitRun, if_pos hk]
      obtain ⟨ih1, ih2, ih3⟩ := ih
      refine ⟨?_, ?_, ?_⟩
      · simpa using ih1
      · simpa using Nat.succ_le_succ ih2
      · intro i hi
        cases i with
        | zero => simpa using hk
        | succ i' =>
          simp only [List.get?_cons_succ]
          exact ih3 i' (by omega)
    · simp only [splitRun, if_neg hk]
      exact ⟨rfl, Nat.zero_le _, fun i hi => absurd hi (Nat.not_lt_zero i)⟩

theorem lookupKey_none_iff (km : List (K × Nat)) (k : K) :
    lookupKey km k = none ↔ ∀ e ∈ km, e.1 ≠ k := by
  induction km with
  | nil => simp [lookupKey]
  | cons e rest ih =>
    obtain ⟨k', v⟩ := e
    by_cases hk : k' = k
    · simp only [lookupKey, if_pos hk]
      constructor
      · intro h; cases h
      · intro h
        exact absurd hk (h (k', v) (List.mem_cons_self _ _))
    · simp only [lookupKey, if_neg hk]
      rw [ih]
      constructor
      · intro h e he
        rcases List.mem_cons.mp he with heq | hmem
        · rw [heq]; exact hk
        · exact h e hmem
      · intro h e he
        exact h e (List.mem_cons_of_mem _ he)

theorem lookupKey_mem {km : List (K × Nat)} {k : K} {v : Nat}
    (h : lookupKey km k = some v) : (k, v) ∈ km := by
  induction km with
  | nil => cases h
  | cons e rest ih =>
    obtain ⟨k', v'⟩ := e
    by_cases hk : k' = k
    · simp only [lookupKey, if_pos hk] at h
      rw [hk, Option.some.inj h]
      exact List.mem_cons_self _ _
    · simp only [lookupKey, if_neg hk] at h
      exact List.mem_cons_of_mem _ (ih h)

theorem setKey_of_none {km : List (K × Nat)} {k : K}
    (h : lookupKey km k = none) (v : Nat) : setKey km k v = km ++ [(k, v)] := by
  induction km with
  | nil => rfl
  | cons e rest ih =>
    obtain ⟨k', v'⟩ := e
    by_cases hk : k' = k
    · simp only [lookupKey, if_pos hk] at h
      cases h
    · simp only [lookupKey, if_neg hk] at h
      simp only [setKey, if_neg hk, ih h, List.cons_append]

theorem setKey_mem {km : List (K × Nat)} {k : K} {v : Nat} :
    ∀ e ∈ setKey km k v, e = (k, v) ∨ e ∈ km := by
  induction km with
  | nil =>
    intro e he
    rcases List.mem_singleton.mp he with heq
    exact Or.inl heq
  | cons e0 rest ih =>
    obtain ⟨k', v'⟩ := e0
    intro e he
    by_cases hk : k' = k
    · simp only [setKey, if_pos hk] at he
      rcases List.mem_cons.mp he with heq | hmem
      · exact Or.inl heq
      · exact Or.inr (List.mem_cons_of_mem _ hmem)
    · simp only [setKey, if_neg hk] at he
      rcases List.mem_cons.mp he with heq | hmem
      · exact Or.inr (heq ▸ List.mem_cons_self _ _)
      · rcases ih e hmem with h1 | h2
        · exact Or.inl h1
        · exact Or.inr (List.mem_cons_of_mem _ h2)

theorem setKey_fst_of_some {km : List (K × Nat)} {k : K} {w : Nat}
    (h : lookupKey km k = some w) (v : Nat) :
    (setKey km k v).map Prod.fst = km.map Prod.fst := by
  induction km with
  | nil => cases h
  | cons e rest ih =>
    obtain ⟨k', v'⟩ := e
    by_cases hk : k' = k
    · rw [hk]
      simp [setKey]
    · simp only [lookupKey, if_neg hk] at h
      simp only [setKey, if_neg hk, List.map_cons, ih h]

theorem lookupKey_setKey_self (km : List (K × Nat)) (k : K) (v : Nat) :
    lookupKey (setKey km k v) k = some v := by
  induction km with
  | nil => simp [setKey, lookupKey]
  | cons e rest ih =>
    obtain ⟨k', v'⟩ := e
    by_cases hk : k' = k
    · simp [setKey, if_pos hk, lookupKey]
    · simp only [setKey, if_neg hk, lookupKey, if_neg hk]
      exact ih

theorem lookupKey_setKey_ne (km : List (K × Nat)) {k k' : K}
    (h : k ≠ k') (v : Nat) :
    lookupKey (setKey km k v) k' = lookupKey km k' := by
  induction km with
  | nil => simp [setKey, lookupKey, fun hc => h hc]
  | cons e rest ih =>
    obtain ⟨k0, v0⟩ := e
    by_cases hk : k0 = k
    · rw [hk]
      simp only [setKey, if_pos rfl, lookupKey, if_neg h]
    · simp only [setKey, if_neg hk, lookupKey]
      by_cases hk' : k0 = k'
      · rw [if_pos hk', if_pos hk']
      · rw [if_neg hk', if_neg hk']
        exact ih

theorem lookupKey_append_notin {km : List (K × Nat)} {k k' : K} {v : Nat}
    (h : k ≠ k') :
    lookupKey (km ++ [(k, v)]) k' = lookupKey km k' := by
  induction km with
  | nil => simp [lookupKey, fun hc => h hc]
  | cons e rest ih =>
    obtain ⟨k0, v0⟩ := e
    simp only [List.cons_append, lookupKey]
    by_cases hk : k0 = k'
    · rw [if_pos hk, if_pos hk]
    · rw [if_neg hk, if_neg hk]
      exact ih

/-! ### `installLoop` characterisation -/

theorem installLoop_shape (timesLen : Nat) :
    ∀ (fuel : Nat) (ks : List K) (lower : Nat) (links : List Link)
      (km : List (K × Nat)), ks.length ≤ fuel →
    ∃ nl, (installLoop timesLen fuel ks lower links km).1 = links ++ nl ∧
      StartsOK (K := K) timesLen ks lower nl := by
  intro fuel
  induction fuel with
  | zero =>
    intro ks lower links km hf
    match ks with
    | [] => exact ⟨[], by simp [installLoop], StartsOK.nil lower⟩
    | k :: rest => exact absurd hf (by simp)
  | succ fuel ih =>
    intro ks lower links km hf
    match ks with
    | [] => exact ⟨[], by simp [installLoop], StartsOK.nil lower⟩
    | k :: rest =>
      have hrun := splitRun_spec k rest
      have hlen : (splitRun k rest).2.length ≤ fuel := by
        rw [hrun.1, List.length_drop]
        simp only [List.length_cons] at hf
        omega
      simp only [installLoop]
      rcases hlk : lookupKey km k with _ | prev
      · simp only [hlk]
        obtain ⟨nl', heq, hso⟩ := ih (splitRun k rest).2
          (lower + (splitRun k rest).1 + 1)
          (links ++ [(timesLen, lower, none)]) (km ++ [(k, links.length)])
          hlen
        refine ⟨(timesLen, lower, none) :: nl', ?_, StartsOK.cons _ _ _ _ _ hso⟩
        rw [heq, List.append_assoc, List.singleton_append]
      · simp only [hlk]
        by_cases hp : prev = links.length
        · rw [if_pos hp]
          obtain ⟨nl', heq, hso⟩ := ih (splitRun k rest).2
            (lower + (splitRun k rest).1 + 1)
            (links ++ [(timesLen, lower, none)]) km hlen
          refine ⟨(timesLen, lower, none) :: nl', ?_,
            StartsOK.cons _ _ _ _ _ hso⟩
          rw [heq, List.append_assoc, List.singleton_append]
        · rw [if_neg hp]
          obtain ⟨nl', heq, hso⟩ := ih (splitRun k rest).2
            (lower + (splitRun k rest).1 + 1)
            (links ++ [(timesLen, lower, some prev)])
            (setKey km k links.length) hlen
          refine ⟨(timesLen, lower, some prev) :: nl', ?_,
            StartsOK.cons _ _ _ _ _ hso⟩
          rw [heq, List.append_assoc, List.singleton_append]

theorem installLoop_invariants (timesLen : Nat) :
    ∀ (fuel : Nat) (ks : List K) (lower : Nat) (links : List Link)
      (km : List (K × Nat)),
    (∀ e ∈ km, e.2 < links.length) →
    (∀ p l, links.get? p = some l → ∀ q ∈ l.2.2, q < p) →
    (km.map Prod.fst).Nodup →
    (∀ e ∈ (installLoop timesLen fuel ks lower links km).2,
        e.2 < (installLoop timesLen fuel ks lower links km).1.length) ∧
    (∀ p l, (installLoop timesLen fuel ks lower links km).1.get? p = some l →
        ∀ q ∈ l.2.2, q < p) ∧
    ((installLoop timesLen fuel ks lower links km).2.map Prod.fst).Nodup ∧
    links.length ≤ (installLoop timesLen fuel ks lower links km).1.length := by
  intro fuel
  induction fuel with
  | zero =>
    intro ks lower links km hkb hnext hnd
    match ks with
    | [] => exact ⟨hkb, hnext, hnd, le_refl _⟩
    | k :: rest => exact ⟨hkb, hnext, hnd, le_refl _⟩
  | succ fuel ih =>
    intro ks lower links km hkb hnext hnd
    match ks with
    | [] => exact ⟨hkb, hnext, hnd, le_refl _⟩
    | k :: rest =>
      simp only [installLoop]
      have hnext1 : ∀ (nxt : Option Nat),
          (∀ q ∈ nxt, q < links.length) →
          ∀ p l, (links ++ [(timesLen, lower, nxt)]).get? p = some l →
            ∀ q ∈ l.2.2, q < p := by
        intro nxt hq p l hget q hql
        rcases Nat.lt_trichotomy p links.length with hlt | heqp | hgt
        · rw [List.get?_append hlt] at hget
          exact hnext p l hget q hql
        · rw [heqp, List.get?_concat_length] at hget
          rw [← Option.some.inj hget] at hql
          rw [heqp]
          exact hq q hql
        · rw [List.get?_eq_none.mpr] at hget
          · cases hget
          · simp only [List.length_append, List.length_cons,
              List.length_nil]
            omega
      have hkb1 : ∀ (nxt : Option Nat), ∀ e ∈ km,
          e.2 < (links ++ [(timesLen, lower, nxt)]).length := by
        intro nxt e he
        rw [List.length_append]
        exact lt_of_lt_of_le (hkb e he) (Nat.le_add_right _ _)
      rcases hlk : lookupKey km k with _ | prev
      · simp only [hlk]
        have hkb2 : ∀ e ∈ km ++ [(k, links.length)],
            e.2 < (links ++ [(timesLen, lower, none)]).length := by
          intro e he
          rcases List.mem_append.mp he with h1 | h2
          · exact hkb1 none e h1
          · rw [List.mem_singleton.mp h2]
            simp [List.length_append]
        have hnd2 : ((km ++ [(k, links.length)]).map Prod.fst).Nodup := by
          rw [List.map_append, List.nodup_append]
          refine ⟨hnd, List.nodup_singleton _, ?_⟩
          intro a ha hb
          have hak : a = k := by simpa using hb
          obtain ⟨e, he, hea⟩ := List.mem_map.mp ha
          exact (lookupKey_none_iff km k).mp hlk e he (by rw [hea, hak])
        obtain ⟨c1, c2, c3, c4⟩ := ih (splitRun k rest).2
          (lower + (splitRun k rest).1 + 1)
          (links ++ [(timesLen, lower, none)]) (km ++ [(k, links.length)])
          hkb2 (hnext1 none (by intro q hq; simp at hq)) hnd2
        refine ⟨c1, c2, c3, ?_⟩
        refine le_trans ?_ c4
        simp [List.length_append]
      · simp only [hlk]
        by_cases hp : prev = links.length
        · rw [if_pos hp]
          obtain ⟨c1, c2, c3, c4⟩ := ih (splitRun k rest).2
            (lower + (splitRun k rest).1 + 1)
            (links ++ [(timesLen, lower, none)]) km
            (hkb1 none) (hnext1 none (by intro q hq; simp at hq)) hnd
          refine ⟨c1, c2, c3, ?_⟩
          refine le_trans ?_ c4
          simp [List.length_append]
        · rw [if_neg hp]
          have hprevlt : prev < links.length := hkb (k, prev) (lookupKey_mem hlk)
          have hkb3 : ∀ e ∈ setKey km k links.length,
              e.2 < (links ++ [(timesLen, lower, some prev)]).length := by
            intro e he
            rcases setKey_mem e he with heq | hmem
            · rw [heq]
              simp [List.length_append]
            · exact hkb1 (some prev) e hmem
          have hnd3 : ((setKey km k links.length).map Prod.fst).Nodup := by
            rw [setKey_fst_of_some hlk]
            exact hnd
          obtain ⟨c1, c2, c3, c4⟩ := ih (splitRun k rest).2
            (lower + (splitRun k rest).1 + 1)
            (links ++ [(timesLen, lower, some prev)])
            (setKey km k links.length) hkb3
            (hnext1 (some prev) (by
              intro q hq
              have hqp : prev = q := by simpa using hq
              rw [← hqp]
              exact hprevlt)) hnd3
          refine ⟨c1, c2, c3, ?_⟩
          refine le_trans ?_ c4
          simp [List.length_append]

theorem startsOK_nil_inv {timesLen : Nat} {ks : List K} {lower : Nat}
    (h : StartsOK timesLen ks lower []) : ks = [] := by
  cases h
  rfl

theorem startsOK_cons_inv {timesLen : Nat} {ks : List K} {lower : Nat}
    {l2 : Link} {nl : List Link}
    (h : StartsOK timesLen ks lower (l2 :: nl)) :
    l2.2.1 = lower ∧ l2.1 = timesLen ∧ ks ≠ [] := by
  cases h
  exact ⟨rfl, rfl, by simp⟩

theorem startsOK_fields {timesLen : Nat} :
    ∀ {ks : List K} {lower : Nat} {nl : List Link},
    StartsOK timesLen ks lower nl → ∀ l ∈ nl, l.1 = timesLen := by
  intro ks lower nl h
  induction h with
  | nil lower => intro l hl; cases hl
  | cons k rest lower nxt nl hso ih =>
    intro l hl
    rcases List.mem_cons.mp hl with heq | hmem
    · rw [heq]
    · exact ih l hmem

/-- The boundary facts for the links created by one `install_differences`
call: each link's slice extends from its `lower` to the next link's
`lower` (or to the end of the batch), that range is non-empty and within
bounds, and consecutive positions inside it carry equal keys. -/
theorem startsOK_bounds {timesLen : Nat} :
    ∀ {ks : List K} {lower : Nat} {nl : List Link},
    StartsOK timesLen ks lower nl →
    ∀ (keysG : List K), ks = keysG.drop lower → lower ≤ keysG.length →
    ∀ j l, nl.get? j = some l →
      l.2.1 < (match nl.get? (j + 1) with
        | some l2 => l2.2.1
        | none => keysG.length) ∧
      (match nl.get? (j + 1) with
        | some l2 => l2.2.1
        | none => keysG.length) ≤ keysG.length ∧
      ∀ i, l.2.1 ≤ i → i + 1 < (match nl.get? (j + 1) with
        | some l2 => l2.2.1
        | none => keysG.length) →
        keysG.get? i = keysG.get? (i + 1) := by
  intro ks lower nl h
  induction h with
  | nil lower => intro keysG _ _ j l hj; cases hj
  | cons k rest lower nxt nl hso ih =>
    intro keysG hkeys hlow j l hj
    have hlowlt : lower < keysG.length := by
      by_contra hc
      push_neg at hc
      rw [List.drop_eq_nil_of_le hc] at hkeys
      cases hkeys
    have hrest : rest = keysG.drop (lower + 1) := by
      have h1 : keysG.drop (lower + 1) = (keysG.drop lower).drop 1 := by
        rw [List.drop_drop]
      rw [h1, ← hkeys, List.drop_one, List.tail_cons]
    have hrun := splitRun_spec k rest
    have hrlen : rest.length = keysG.length - (lower + 1) := by
      rw [hrest, List.length_drop]
    have hlow' : lower + (splitRun k rest).1 + 1 ≤ keysG.length := by
      have := hrun.2.1
      omega
    have hr : (splitRun k rest).2 =
        keysG.drop (lower + (splitRun k rest).1 + 1) := by
      rw [hrun.1, hrest, List.drop_drop]
      congr 1
      omega
    have hkeyk : ∀ m, m ≤ (splitRun k rest).1 →
        keysG.get? (lower + m) = some k := by
      intro m hm
      cases m with
      | zero =>
        have h0 : (keysG.drop lower).get? 0 = keysG.get? lower := by
          simp [List.get?_drop]
        rw [← hkeys] at h0
        simpa using h0.symm
      | succ m' =>
        have h1 : rest.get? m' = some k := hrun.2.2 m' (by omega)
        rw [hrest, List.get?_drop] at h1
        have h2 : lower + 1 + m' = lower + (m' + 1) := by omega
        rw [h2] at h1
        exact h1
      -- positions lower .. lower + n all carry key k
    have hinterior : ∀ i, lower ≤ i →
        i + 1 ≤ lower + (splitRun k rest).1 →
        keysG.get? i = keysG.get? (i + 1) := by
      intro i hi hi1
      obtain ⟨m, hm⟩ : ∃ m, i = lower + m := ⟨i - lower, by omega⟩
      rw [hm, hkeyk m (by omega)]
      have h2 : lower + m + 1 = lower + (m + 1) := by omega
      rw [h2, hkeyk (m + 1) (by omega)]
    cases j with
    | zero =>
      simp only [List.get?_cons_zero, Option.some.injEq] at hj
      rw [← hj]
      simp only [List.get?_cons_succ]
      cases nl with
      | nil =>
        simp only [List.get?_nil]
        have hre : (splitRun k rest).2 = [] := startsOK_nil_inv hso
        rw [hre] at hr
        have hge : keysG.length ≤ lower + (splitRun k rest).1 + 1 := by
          by_contra hc
          push_neg at hc
          have : keysG.drop (lower + (splitRun k rest).1 + 1) ≠ [] := by
            intro hnil
            have := List.drop_eq_nil_iff_le.mp hnil
            omega
          exact this hr.symm
        refine ⟨hlowlt, le_refl _, ?_⟩
        intro i hi hi1
        exact hinterior i hi (by omega)
      | cons l2 nl' =>
        simp only [List.get?_cons_zero]
        obtain ⟨hl2, _, _⟩ := startsOK_cons_inv hso
        rw [hl2]
        refine ⟨by omega, hlow', ?_⟩
        intro i hi hi1
        exact hinterior i hi (by omega)
    | succ j' =>
      simp only [List.get?_cons_succ] at hj ⊢
      exact ih keysG hr hlow' j' l hj

theorem runSorted_spec :
    ∀ (i : Nat) (keys : List K) (vals : List (V × Int)),
    runSorted keys vals = true →
    ∀ k, keys.get? i = some k → keys.get? (i + 1) = some k →
    ∀ p q, vals.get? i = some p → vals.get? (i + 1) = some q →
    p.1 < q.1 := by
  intro i
  induction i with
  | zero =>
    intro keys vals hrs k hk0 hk1 p q hv0 hv1
    match keys, vals with
    | k1 :: k2 :: ks, v1 :: v2 :: vs =>
      simp only [List.get?_cons_zero, List.get?_cons_succ,
        Option.some.injEq] at hk0 hk1 hv0 hv1
      simp only [runSorted, Bool.and_eq_true, Bool.or_eq_true,
        Bool.not_eq_true', decide_eq_true_eq, decide_eq_false_iff_not] at hrs
      rcases hrs.1 with hne | hlt
      · exact absurd (hk0.trans hk1.symm) hne
      · rw [← hv0, ← hv1]
        exact hlt
    | k1 :: k2 :: ks, [] => cases hv0
    | k1 :: k2 :: ks, [v1] => simp at hv1
    | [], _ => cases hk0
    | [k1], _ => simp at hk1
  | succ i' ih =>
    intro keys vals hrs k hk0 hk1 p q hv0 hv1
    match keys, vals with
    | k1 :: k2 :: ks, v1 :: v2 :: vs =>
      simp only [runSorted, Bool.and_eq_true] at hrs
      rw [List.get?_cons_succ] at hk0 hk1 hv0 hv1
      exact ih (k2 :: ks) (v2 :: vs) hrs.2 k hk0 hk1 p q hv0 hv1
    | k1 :: k2 :: ks, [] => cases hv0
    | k1 :: k2 :: ks, [v1] =>
      rw [List.get?_cons_succ] at hv1
      simp at hv1
    | [], _ => cases hk0
    | [k1], _ =>
      rw [List.get?_cons_succ] at hk1
      simp at hk1

theorem chain'_const_le {c : Nat} :
    ∀ {nl : List Link}, (∀ l ∈ nl, l.1 = c) →
      List.Chain' (fun a b : Link => a.1 ≤ b.1) nl := by
  intro nl
  induction nl with
  | nil => intro _; exact List.chain'_nil
  | cons l rest ih =>
    intro h
    rw [List.chain'_cons']
    refine ⟨?_, ih (fun l' hl' => h l' (List.mem_cons_of_mem _ hl'))⟩
    intro y hy
    rw [h l (List.mem_cons_self _ _),
      h y (List.mem_cons_of_mem _ (List.mem_of_mem_head? hy))]

theorem chain'_of_get? {α : Type} {R : α → α → Prop} :
    ∀ (l : List α),
    (∀ (m : Nat) (a b : α), l.get? m = some a → l.get? (m + 1) = some b →
      R a b) → List.Chain' R l := by
  intro l
  induction l with
  | nil => intro _; exact List.chain'_nil
  | cons a rest ih =>
    intro h
    rw [List.chain'_cons']
    constructor
    · intro y hy
      refine h 0 a y rfl ?_
      rw [List.get?_cons_succ]
      cases rest with
      | nil => cases (List.mem_of_mem_head? hy)
      | cons b t =>
        have : y = b := by
          have := hy
          simp at this
          exact this.symm
        rw [this]
        rfl
    · refine ih ?_
      intro m x y hx hy
      exact h (m + 1) x y (by rw [List.get?_cons_succ]; exact hx)
        (by rw [List.get?_cons_succ]; exact hy)

theorem slice_get? (vals : List (V × Int)) (s n m : Nat) (hm : m < n) :
    ((vals.drop s).take n).get? m = vals.get? (s + m) := by
  rw [List.get?_take hm, List.get?_drop]

theorem mem_of_mem_getLast? {α : Type} {l : List α} {x : α}
    (h : x ∈ l.getLast?) : x ∈ l := by
  obtain ⟨hne, hx⟩ := List.mem_getLast?_eq_getLast h
  rw [hx]
  exact List.getLast_mem hne

/-- Appending fresh links (all at the new time index) and a new time
entry does not change the range of an existing link. -/
theorem get_range_append (σ : CT K T V) (nl : List Link)
    (te : T × List (V × Int)) (km' : List (K × Nat))
    (tmp' : List (V × Int)) (p : Nat) (hp : p < σ.links.length)
    (hidx : ∀ l ∈ σ.links, l.1 < σ.times.length)
    (hnl : ∀ l ∈ nl, l.1 = σ.times.length) :
    get_range (⟨σ.links ++ nl, σ.times ++ [te], km', tmp'⟩ : CT K T V) p =
      get_range σ p := by
  obtain ⟨⟨i, lo, nx⟩, hpl⟩ : ∃ l, σ.links.get? p = some l :=
    ⟨_, List.get?_eq_get hp⟩
  have hi : i < σ.times.length := hidx _ (List.get?_mem hpl)
  obtain ⟨⟨tm, vs⟩, hti⟩ : ∃ e, σ.times.get? i = some e :=
    ⟨_, List.get?_eq_get hi⟩
  have e1 : (σ.links ++ nl).get? p = some (i, lo, nx) := by
    rw [List.get?_append hp]; exact hpl
  have e2 : (σ.times ++ [te]).get? i = some (tm, vs) := by
    rw [List.get?_append hi]; exact hti
  rcases Nat.lt_or_ge (p + 1) σ.links.length with hc1 | hc2
  · have e3 : (σ.links ++ nl).get? (p + 1) = σ.links.get? (p + 1) :=
      List.get?_append hc1
    simp only [get_range, e1, e2, e3, hpl, hti]
  · have e3σ : σ.links.get? (p + 1) = none :=
      List.get?_eq_none.mpr (by omega)
    have hple : p + 1 = σ.links.length := by omega
    cases nl with
    | nil =>
      have e3' : (σ.links ++ ([] : List Link)).get? (p + 1) = none := by
        rw [List.append_nil]
        exact e3σ
      simp only [get_range, e1, e2, e3', e3σ, hpl, hti]
    | cons l2 nl' =>
      obtain ⟨i2, lo2, nx2⟩ := l2
      have e3' : (σ.links ++ (i2, lo2, nx2) :: nl').get? (p + 1) =
          some (i2, lo2, nx2) := by
        rw [hple, List.get?_append_right (le_refl _), Nat.sub_self]
        rfl
      have hne2 : i2 ≠ i := by
        have := hnl (i2, lo2, nx2) (List.mem_cons_self _ _)
        simp only at this
        omega
      simp only [get_range, e1, e2, e3', e3σ, hpl, hti]
      rw [if_neg hne2]

/-- A sub-range of a valid batch whose interior positions carry equal
keys is a coalesced slice. -/
theorem slice_coalesced {keys : List K} {vals : List (V × Int)}
    (hvlen : vals.length = keys.length) (hvnz : ∀ q ∈ vals, q.2 ≠ 0)
    (hvsort : runSorted keys vals = true) {s u : Nat}
    (hint : ∀ i, s ≤ i → i + 1 < u → keys.get? i = keys.get? (i + 1)) :
    Coalesced ((vals.drop s).take (u - s)) := by
  constructor
  · apply chain'_of_get?
    intro m a b hma hmb
    obtain ⟨hlt1, _⟩ := List.get?_eq_some.mp hma
    obtain ⟨hlt2, _⟩ := List.get?_eq_some.mp hmb
    have hmlt : m < u - s := lt_of_lt_of_le hlt1 (List.length_take_le _ _)
    have hm1lt : m + 1 < u - s := lt_of_lt_of_le hlt2 (List.length_take_le _ _)
    have hma' : vals.get? (s + m) = some a := by
      rw [← slice_get? vals s (u - s) m hmlt]
      exact hma
    have hmb' : vals.get? (s + m + 1) = some b := by
      rw [show s + m + 1 = s + (m + 1) from by omega,
        ← slice_get? vals s (u - s) (m + 1) hm1lt]
      exact hmb
    obtain ⟨hsm1, _⟩ := List.get?_eq_some.mp hmb'
    obtain ⟨k, hk⟩ : ∃ k, keys.get? (s + m) = some k :=
      ⟨_, List.get?_eq_get (by omega)⟩
    have hk2 : keys.get? (s + m + 1) = some k := by
      rw [← hint (s + m) (by omega) (by omega)]
      exact hk
    exact runSorted_spec (s + m) keys vals hvsort k hk hk2 a b hma' hmb'
  · intro q hq
    exact hvnz q (List.mem_of_mem_drop (List.mem_of_mem_take hq))

/-- `install_differences` with valid inputs preserves well-formedness. -/
theorem wf_install {σ : CT K T V} {t : T} {keys : List K}
    {vals : List (V × Int)} (hwf : WF σ) (hv : ValidInstall σ t keys vals) :
    WF (install_differences σ t keys vals) := by
  obtain ⟨hvlen, hvnz, hvsort, hvfresh⟩ := hv
  obtain ⟨nl, hlinks, hso⟩ := installLoop_shape σ.times.length keys.length
    keys 0 σ.links σ.keys (le_refl _)
  obtain ⟨hkb', hnext', hnd', _⟩ := installLoop_invariants σ.times.length
    keys.length keys 0 σ.links σ.keys hwf.keysBound hwf.linkNext
    hwf.keysNodup
  have hσeq : install_differences σ t keys vals =
      (⟨σ.links ++ nl, σ.times ++ [(t, vals)],
        (installLoop σ.times.length keys.length keys 0 σ.links σ.keys).2,
        σ.temp⟩ : CT K T V) := by
    rcases hlast : σ.times.getLast? with _ | last
    · simp only [install_differences, hlast]
      rw [hlinks]
    · have hne : last.1 ≠ t := hvfresh last (by rw [hlast]; rfl)
      simp only [install_differences, hlast]
      rw [if_neg hne, hlinks]
  rw [hσeq]
  refine ⟨?_, ?_, ?_, ?_, ?_, ?_, ?_⟩
  · -- linkTime
    intro l hl
    simp only at hl ⊢
    simp only [List.length_append, List.length_cons, List.length_nil]
    rcases List.mem_append.mp hl with h1 | h2
    · have := hwf.linkTime l h1
      omega
    · have := startsOK_fields hso l h2
      omega
  · -- linkMono
    simp only
    rw [List.chain'_append]
    refine ⟨hwf.linkMono, chain'_const_le (startsOK_fields hso), ?_⟩
    intro x hx y hy
    have hx' := hwf.linkTime x (mem_of_mem_getLast? hx)
    have hy' := startsOK_fields hso y (List.mem_of_mem_head? hy)
    omega
  · -- ranges
    intro p hp
    simp only [List.length_append] at hp
    rcases Nat.lt_or_ge p σ.links.length with hlt | hge
    · rw [get_range_append σ nl (t, vals) _ _ p hlt hwf.linkTime
        (startsOK_fields hso)]
      exact hwf.ranges p hlt
    · have hj : p - σ.links.length < nl.length := by omega
      obtain ⟨⟨i, s, nx⟩, hnlj⟩ :
          ∃ l, nl.get? (p - σ.links.length) = some l :=
        ⟨_, List.get?_eq_get hj⟩
      have hiT : i = σ.times.length := startsOK_fields hso _
        (List.get?_mem hnlj)
      have e1 : (σ.links ++ nl).get? p = some (i, s, nx) := by
        rw [List.get?_append_right hge]
        exact hnlj
      have e2 : (σ.times ++ [(t, vals)]).get? i = some (t, vals) := by
        rw [hiT]
        exact List.get?_concat_length _ _
      have hbounds := startsOK_bounds hso keys (List.drop_zero keys).symm
        (Nat.zero_le _) (p - σ.links.length) (i, s, nx) hnlj
      have hnext_eq : (σ.links ++ nl).get? (p + 1) =
          nl.get? (p - σ.links.length + 1) := by
        rw [List.get?_append_right (by omega)]
        congr 1
        omega
      rcases hnx2 : nl.get? (p - σ.links.length + 1) with _ | l2
      · simp only [hnx2] at hbounds
        obtain ⟨hb1, _, hb3⟩ := hbounds
        have hsv : s ≤ vals.length := by omega
        refine ⟨(vals.drop s).take (vals.length - s), ?_, ?_⟩
        · simp only [get_range, e1, e2, hnext_eq, hnx2]
          rw [if_pos ⟨hsv, le_refl _⟩]
        · exact slice_coalesced hvlen hvnz hvsort
            (fun i hi hi1 => hb3 i hi (by omega))
      · obtain ⟨i2, s2, nx2'⟩ := l2
        simp only [hnx2] at hbounds
        obtain ⟨hb1, hb2, hb3⟩ := hbounds
        have hi2T : i2 = σ.times.length := startsOK_fields hso _
          (List.get?_mem hnx2)
        have hs2v : s2 ≤ vals.length := by omega
        have hii : i2 = i := by rw [hi2T, hiT]
        refine ⟨(vals.drop s).take (s2 - s), ?_, ?_⟩
        · simp only [get_range, e1, e2, hnext_eq, hnx2]
          rw [if_pos hii,
            if_pos (⟨le_of_lt hb1, hs2v⟩ : s ≤ s2 ∧ s2 ≤ vals.length)]
        · exact slice_coalesced hvlen hvnz hvsort
            (fun i hi hi1 => hb3 i hi (by omega))
  · -- keysBound
    intro e he
    have h1 := hkb' e he
    rw [hlinks] at h1
    exact h1
  · -- keysNodup
    exact hnd'
  · -- linkNext
    intro p l hget q hq
    have hget' : (installLoop σ.times.length keys.length keys 0 σ.links
        σ.keys).1.get? p = some l := by
      rw [hlinks]
      exact hget
    exact hnext' p l hget' q hq
  · -- tempNil
    exact hwf.tempNil

/-! ### Chain walks under well-formedness -/

theorem linkMono_get {σ : CT K T V} (hwf : WF σ) {q1 q2 : Nat}
    {l1 l2 : Link} (h1 : σ.links.get? q1 = some l1)
    (h2 : σ.links.get? q2 = some l2) (hlt : q2 < q1) : l2.1 ≤ l1.1 := by
  haveI : IsTrans Link (fun a b : Link => a.1 ≤ b.1) :=
    ⟨fun _ _ _ ha hb => le_trans ha hb⟩
  have hpw := List.chain'_iff_pairwise.mp hwf.linkMono
  obtain ⟨hq1, hg1⟩ := List.get?_eq_some.mp h1
  obtain ⟨hq2, hg2⟩ := List.get?_eq_some.mp h2
  have := (List.pairwise_iff_get.mp hpw) ⟨q2, hq2⟩ ⟨q1, hq1⟩ hlt
  rw [hg1, hg2] at this
  exact this

theorem traceStep_eq {σ : CT K T V} {p i lo : Nat} {nx : Option Nat}
    {tm : T} {vs s : List (V × Int)}
    (h1 : σ.links.get? p = some (i, lo, nx))
    (h2 : σ.times.get? i = some (tm, vs))
    (h3 : get_range σ p = some s) :
    traceStep σ p = some ((tm, s), nx) := by
  simp only [traceStep, h1, h2, h3, Option.map_some']

theorem walk_wf {σ : CT K T V} (hwf : WF σ) :
    ∀ (fuel p : Nat), p < σ.links.length → p < fuel →
    ∃ ch ps, traceFrom σ fuel (some p) = some ch ∧
      chainPosFrom σ fuel (some p) = some ps ∧
      ps.head? = some p ∧ ch.length = ps.length ∧
      List.Chain' (fun a b => b < a) ps ∧ (∀ q ∈ ps, q ≤ p) ∧
      (∀ e ∈ ch, Coalesced e.2) := by
  intro fuel
  induction fuel with
  | zero => intro p _ hf; exact absurd hf (Nat.not_lt_zero p)
  | succ fuel ih =>
    intro p hp hf
    obtain ⟨⟨i, lo, nx⟩, hpl⟩ : ∃ l, σ.links.get? p = some l :=
      ⟨_, List.get?_eq_get hp⟩
    have hi : i < σ.times.length := hwf.linkTime _ (List.get?_mem hpl)
    obtain ⟨⟨tm, vs⟩, hti⟩ : ∃ e, σ.times.get? i = some e :=
      ⟨_, List.get?_eq_get hi⟩
    obtain ⟨s, hs, hsc⟩ := hwf.ranges p hp
    have hstep := traceStep_eq hpl hti hs
    cases nx with
    | none =>
      refine ⟨[(tm, s)], [p], ?_, ?_, rfl, rfl, List.chain'_singleton _,
        ?_, ?_⟩
      · simp only [traceFrom, hstep, Option.map_some']
      · simp only [chainPosFrom, hstep, Option.map_some']
      · intro q hq
        rw [List.mem_singleton.mp hq]
      · intro e he
        rw [List.mem_singleton.mp he]
        exact hsc
    | some q =>
      have hqp : q < p := hwf.linkNext p _ hpl q rfl
      have hql : q < σ.links.length := lt_trans hqp hp
      have hqf : q < fuel := by omega
      obtain ⟨ch', ps', hch', hps', hhead', hlen', hchain', hbound', hco'⟩ :=
        ih q hql hqf
      refine ⟨(tm, s) :: ch', p :: ps', ?_, ?_, rfl, ?_, ?_, ?_, ?_⟩
      · simp only [traceFrom, hstep, hch', Option.map_some']
      · simp only [chainPosFrom, hstep, hps', Option.map_some']
      · simp [hlen']
      · rw [List.chain'_cons']
        refine ⟨?_, hchain'⟩
        intro y hy
        rw [hhead'] at hy
        have : y = q := by
          have := hy
          simp at this
          exact this.symm
        rw [this]
        exact hqp
      · intro r hr
        rcases List.mem_cons.mp hr with heq | hmem
        · rw [heq]
        · exact le_trans (hbound' r hmem) (le_of_lt hqp)
      · intro e he
        rcases List.mem_cons.mp he with heq | hmem
        · rw [heq]
          exact hsc
        · exact hco' e hmem

theorem decreasing_bounded_length {ps : List Nat} {n : Nat}
    (hc : List.Chain' (fun a b => b < a) ps) (hb : ∀ q ∈ ps, q < n) :
    ps.length ≤ n := by
  haveI : IsTrans Nat (fun a b : Nat => b < a) :=
    ⟨fun _ _ _ ha hb => lt_trans hb ha⟩
  have hnd : ps.Nodup :=
    (List.chain'_iff_pairwise.mp hc).imp (fun h => ne_of_gt h)
  have hsub : ps ⊆ List.range n := by
    intro q hq
    exact List.mem_range.mpr (hb q hq)
  have := (List.subperm_of_subset hnd hsub).length_le
  simpa using this

/-- Under well-formedness the trace walk succeeds and yields coalesced
slices. -/
theorem traceList_wf {σ : CT K T V} (hwf : WF σ) (k : K) :
    ∃ ch, traceList σ k = some ch ∧ (∀ e ∈ ch, Coalesced e.2) ∧
      ch.length ≤ σ.links.length ∧
      (lookupKey σ.keys k = none → ch = []) := by
  unfold traceList
  rcases hlk : lookupKey σ.keys k with _ | h0
  · exact ⟨[], rfl, fun e he => absurd he (List.not_mem_nil e), by simp,
      fun _ => rfl⟩
  · have hh : h0 < σ.links.length := hwf.keysBound (k, h0) (lookupKey_mem hlk)
    obtain ⟨ch, ps, hch, hps, _, hlen, hchain, hbound, hco⟩ :=
      walk_wf hwf (σ.links.length + 1) h0 hh (by omega)
    refine ⟨ch, hch, hco, ?_, fun hc => by simp [hlk] at hc⟩
    rw [hlen]
    exact decreasing_bounded_length hchain
      (fun q hq => lt_of_le_of_lt (hbound q hq) hh)

/-- Walks only depend on the steps taken at positions below a bound, as
long as chain pointers stay below it. -/
theorem traceFrom_congr {σ' σ : CT K T V} {L : Nat}
    (hstep : ∀ p, p < L → traceStep σ' p = traceStep σ p)
    (hnext : ∀ p, p < L → ∀ st, traceStep σ p = some st →
      ∀ q ∈ st.2, q < L) :
    ∀ (fuel : Nat) (op : Option Nat), (∀ p, op = some p → p < L) →
      traceFrom σ' fuel op = traceFrom σ fuel op := by
  intro fuel
  induction fuel with
  | zero =>
    intro op hop
    cases op with
    | none => rfl
    | some p => rfl
  | succ fuel ih =>
    intro op hop
    cases op with
    | none => rfl
    | some p =>
      have hpL : p < L := hop p rfl
      simp only [traceFrom, hstep p hpL]
      rcases hst : traceStep σ p with _ | st
      · rfl
      · obtain ⟨e, nxt⟩ := st
        show Option.map (fun l => e :: l) (traceFrom σ' fuel nxt) =
          Option.map (fun l => e :: l) (traceFrom σ fuel nxt)
        rw [ih nxt (fun q hq =>
          hnext p hpL (e, nxt) hst q (by rw [hq]; rfl))]

/-! ### Helpers for `set_collection` -/

theorem drop_take_append {α : Type} (l1 l2 : List α) (a b : Nat)
    (h : a + b ≤ l1.length) :
    ((l1 ++ l2).drop a).take b = (l1.drop a).take b := by
  rw [List.drop_append_of_le_length (by omega),
    List.take_append_of_le_length (by rw [List.length_drop]; omega)]

theorem set_get?_self {α : Type} {l : List α} {n : Nat} {a : α}
    (h : l.get? n = some a) : l.set n a = l := by
  apply List.ext_get?
  intro m
  rw [List.get?_set]
  by_cases hm : n = m
  · rw [if_pos hm, ← hm, h]
    rfl
  · rw [if_neg hm]

theorem weight_negate (v : V) (l : List (V × Int)) :
    weight v (l.map (fun p => (p.1, p.2 * (-1)))) = -weight v l := by
  induction l with
  | nil => simp [weight]
  | cons p rest ih =>
    rw [List.map_cons, weight_cons, weight_cons]
    dsimp only
    rw [ih]
    by_cases hp : p.1 = v
    · rw [if_pos hp, if_pos hp]
      ring
    · rw [if_neg hp, if_neg hp]
      ring

theorem coalesced_negate {l : List (V × Int)} (h : Coalesced l) :
    Coalesced (l.map (fun p => (p.1, p.2 * (-1)))) := by
  obtain ⟨h1, h2⟩ := h
  constructor
  · rw [List.chain'_map]
    exact h1
  · intro q hq
    obtain ⟨p, hp, hpq⟩ := List.mem_map.mp hq
    have hz : q.2 = p.2 * (-1) := by rw [← hpq]
    intro hc
    rw [hz] at hc
    exact h2 p hp (by omega)

theorem lookupKey_append_self {km : List (K × Nat)} {k : K}
    (h : lookupKey km k = none) (v : Nat) :
    lookupKey (km ++ [(k, v)]) k = some v := by
  induction km with
  | nil => simp [lookupKey]
  | cons e rest ih =>
    obtain ⟨k0, v0⟩ := e
    by_cases hk : k0 = k
    · simp only [lookupKey, if_pos hk] at h
      cases h
    · simp only [List.cons_append, lookupKey, if_neg hk] at h ⊢
      exact ih h

theorem chain_le_get? {l : List Link}
    (hmono : List.Chain' (fun a b : Link => a.1 ≤ b.1) l) {q1 q2 : Nat}
    {l1 l2 : Link} (h1 : l.get? q1 = some l1) (h2 : l.get? q2 = some l2)
    (hlt : q1 < q2) : l1.1 ≤ l2.1 := by
  haveI : IsTrans Link (fun a b : Link => a.1 ≤ b.1) :=
    ⟨fun _ _ _ ha hb => le_trans ha hb⟩
  have hpw := List.chain'_iff_pairwise.mp hmono
  obtain ⟨hq1, hg1⟩ := List.get?_eq_some.mp h1
  obtain ⟨hq2, hg2⟩ := List.get?_eq_some.mp h2
  have := (List.pairwise_iff_get.mp hpw) ⟨q1, hq1⟩ ⟨q2, hq2⟩ hlt
  rw [hg1, hg2] at this
  exact this

theorem get_range_snoc_time (σ : CT K T V) (te : T × List (V × Int))
    (km' : List (K × Nat)) (tmp' : List (V × Int)) (p : Nat)
    (hp : p < σ.links.length)
    (hidx : ∀ l ∈ σ.links, l.1 < σ.times.length) :
    get_range (⟨σ.links, σ.times ++ [te], km', tmp'⟩ : CT K T V) p =
      get_range σ p := by
  have h := get_range_append σ [] te km' tmp' p hp hidx
    (by intro l hl; cases hl)
  rw [List.append_nil] at h
  exact h

theorem wf_retime {σ : CT K T V} (hwf : WF σ) :
    WF (⟨σ.links, σ.times, σ.keys, []⟩ : CT K T V) :=
  ⟨hwf.linkTime, hwf.linkMono, hwf.ranges, hwf.keysBound, hwf.keysNodup,
    hwf.linkNext, rfl⟩

theorem wf_push_time {σ : CT K T V} (hwf : WF σ) (t : T) :
    WF (⟨σ.links, σ.times ++ [(t, [])], σ.keys, []⟩ : CT K T V) := by
  refine ⟨?_, hwf.linkMono, ?_, hwf.keysBound, hwf.keysNodup,
    hwf.linkNext, rfl⟩
  · intro l hl
    have := hwf.linkTime l hl
    simp only [List.length_append, List.length_cons, List.length_nil]
    omega
  · intro p hp
    rw [get_range_snoc_time σ (t, []) σ.keys [] p hp hwf.linkTime]
    exact hwf.ranges p hp

theorem wf_sigma1 {σ : CT K T V} (hwf : WF σ) (t : T) :
    WF (⟨σ.links,
      (match σ.times.getLast? with
       | none => σ.times ++ [(t, [])]
       | some last =>
         if last.1 = t then σ.times else σ.times ++ [(t, [])]),
      σ.keys, []⟩ : CT K T V) := by
  rcases hl : σ.times.getLast? with _ | last
  · exact wf_push_time hwf t
  · by_cases ht : last.1 = t
    · simp only [if_pos ht]
      exact wf_retime hwf
    · simp only [if_neg ht]
      exact wf_push_time hwf t

/-- Under well-formedness, `get_collection` with an empty target succeeds
and returns the merge of the chain slices at times `≤ t`. -/
theorem get_collection_out {σ : CT K T V} (hwf : WF σ) (k : K) (t : T) :
    ∃ ch out, traceList σ k = some ch ∧ (∀ e ∈ ch, Coalesced e.2) ∧
      ch.length ≤ σ.links.length ∧
      (lookupKey σ.keys k = none → ch = []) ∧
      get_collection σ k t [] = some out ∧
      out = merge ((ch.filter (fun e => decide (e.1 ≤ t))).map
        (fun e => e.2)) [] ∧
      Coalesced out ∧
      (∀ v, weight v out = sumWeights v ((ch.filter
        (fun e => decide (e.1 ≤ t))).map (fun e => e.2))) := by
  obtain ⟨ch, hch, hco, hlen, hnil⟩ := traceList_wf hwf k
  refine ⟨ch, merge ((ch.filter (fun e => decide (e.1 ≤ t))).map
      (fun e => e.2)) [], hch, hco, hlen, hnil, ?_, rfl, ?_, ?_⟩
  · simp [get_collection, hch]
  · refine merge_coalesced _ ?_
    intro s hs
    obtain ⟨e, he, hes⟩ := List.mem_map.mp hs
    rw [← hes]
    exact hco e (List.mem_of_mem_filter he)
  · intro v
    rw [merge_weight]

/-- `get_range` at an old link is unchanged when a link for the last time
entry is appended and that entry's batch is extended on the right. -/
theorem get_range_set_last {links : List Link}
    {times1 : List (T × List (V × Int))} {km : List (K × Nat)}
    (km' : List (K × Nat)) (tp' : List (V × Int))
    {entry : T × List (V × Int)}
    (D : List (V × Int)) (nxt : Option Nat)
    (hidx : ∀ l ∈ links, l.1 < times1.length)
    (hmono : List.Chain' (fun a b : Link => a.1 ≤ b.1) links)
    (hentry : times1.get? (times1.length - 1) = some entry)
    {p : Nat} (hp : p < links.length) {s0 : List (V × Int)}
    (hval : get_range (⟨links, times1, km, []⟩ : CT K T V) p = some s0) :
    get_range (⟨links ++ [(times1.length - 1, entry.2.length, nxt)],
        times1.set (times1.length - 1) (entry.1, entry.2 ++ D), km',
        tp'⟩ : CT K T V) p =
      get_range (⟨links, times1, km, []⟩ : CT K T V) p := by
  obtain ⟨⟨i, lo, nx⟩, hpl⟩ : ∃ l, links.get? p = some l :=
    ⟨_, List.get?_eq_get hp⟩
  have hi : i < times1.length := hidx _ (List.get?_mem hpl)
  obtain ⟨⟨tm, vs⟩, hti⟩ : ∃ e, times1.get? i = some e :=
    ⟨_, List.get?_eq_get hi⟩
  have e1 : (links ++ [(times1.length - 1, entry.2.length, nxt)]).get? p
      = some (i, lo, nx) := by rw [List.get?_append hp]; exact hpl
  by_cases hii : i = times1.length - 1
  · have hvs : (tm, vs) = entry := by
      rw [hii, hentry] at hti
      exact (Option.some.inj hti).symm
    have hvs2 : vs = entry.2 := by rw [← hvs]
    have e2 : (times1.set (times1.length - 1)
        (entry.1, entry.2 ++ D)).get? i = some (entry.1, entry.2 ++ D) := by
      rw [hii, List.get?_set_eq, hentry]
      rfl
    rcases Nat.lt_or_ge (p + 1) links.length with hc1 | hc2
    · obtain ⟨⟨i2, l2, nx2⟩, hpl2⟩ : ∃ l, links.get? (p + 1) = some l :=
        ⟨_, List.get?_eq_get hc1⟩
      have e3 : (links ++ [(times1.length - 1, entry.2.length, nxt)]).get?
          (p + 1) = some (i2, l2, nx2) := by
        rw [List.get?_append hc1]; exact hpl2
      have hi2 : i2 < times1.length := hidx _ (List.get?_mem hpl2)
      have hle : i ≤ i2 := chain_le_get? hmono hpl hpl2 (by omega)
      have hi2eq : i2 = i := by omega
      have hg : lo ≤ l2 ∧ l2 ≤ vs.length := by
        by_contra hc
        simp only [get_range, hpl, hti, hpl2] at hval
        rw [if_pos hi2eq, if_neg hc] at hval
        exact Option.noConfusion hval
      simp only [get_range, hpl, hti, hpl2, e1, e2, e3]
      rw [if_pos hi2eq, if_pos hi2eq]
      rw [if_pos hg, if_pos (⟨hg.1, by
        have := hg.2
        rw [hvs2] at this
        rw [List.length_append]
        omega⟩ : lo ≤ l2 ∧ l2 ≤ (entry.2 ++ D).length)]
      rw [drop_take_append entry.2 D lo (l2 - lo) (by
        have := hg.2
        rw [hvs2] at this
        omega), hvs2]
    · have e3σ : links.get? (p + 1) = none :=
        List.get?_eq_none.mpr (by omega)
      have hple : p + 1 = links.length := by omega
      have e3 : (links ++ [(times1.length - 1, entry.2.length, nxt)]).get?
          (p + 1) = some (times1.length - 1, entry.2.length, nxt) := by
        rw [hple, List.get?_concat_length]
      have hg : lo ≤ vs.length := by
        by_contra hc
        simp only [get_range, hpl, hti, e3σ] at hval
        rw [if_neg (fun hk => hc hk.1)] at hval
        exact Option.noConfusion hval
      simp only [get_range, hpl, hti, e1, e2, e3, e3σ]
      rw [if_pos hii.symm]
      rw [if_pos (⟨hg, le_refl _⟩ :
          lo ≤ vs.length ∧ vs.length ≤ vs.length),
        if_pos (⟨by rw [← hvs2]; exact hg, by
          rw [List.length_append]; omega⟩ :
          lo ≤ entry.2.length ∧ entry.2.length ≤ (entry.2 ++ D).length)]
      rw [drop_take_append entry.2 D lo (entry.2.length - lo) (by
        rw [hvs2] at hg
        omega), hvs2]
  · have e2 : (times1.set (times1.length - 1)
        (entry.1, entry.2 ++ D)).get? i = some (tm, vs) :=
      (List.get?_set_ne _ _ (fun hc => hii hc.symm)).trans hti
    rcases Nat.lt_or_ge (p + 1) links.length with hc1 | hc2
    · obtain ⟨⟨i2, l2, nx2⟩, hpl2⟩ : ∃ l, links.get? (p + 1) = some l :=
        ⟨_, List.get?_eq_get hc1⟩
      have e3 : (links ++ [(times1.length - 1, entry.2.length, nxt)]).get?
          (p + 1) = some (i2, l2, nx2) := by
        rw [List.get?_append hc1]; exact hpl2
      simp only [get_range, hpl, hti, hpl2, e1, e2, e3]
    · have e3σ : links.get? (p + 1) = none :=
        List.get?_eq_none.mpr (by omega)
      have hple : p + 1 = links.length := by omega
      have e3 : (links ++ [(times1.length - 1, entry.2.length, nxt)]).get?
          (p + 1) = some (times1.length - 1, entry.2.length, nxt) := by
        rw [hple, List.get?_concat_length]
      simp only [get_range, hpl, hti, e1, e2, e3, e3σ]
      rw [if_neg (show ¬(times1.length - 1 = i) from fun hc => hii hc.symm)]

/-- `get_range` at the freshly appended link returns exactly the delta. -/
theorem get_range_new_link (links : List Link)
    {times1 : List (T × List (V × Int))} (km' : List (K × Nat))
    (tp' : List (V × Int)) {entry : T × List (V × Int)}
    (D : List (V × Int)) (nxt : Option Nat)
    (hentry : times1.get? (times1.length - 1) = some entry) :
    get_range (⟨links ++ [(times1.length - 1, entry.2.length, nxt)],
        times1.set (times1.length - 1) (entry.1, entry.2 ++ D), km',
        tp'⟩ : CT K T V) links.length = some D := by
  have e1 : (links ++ [(times1.length - 1, entry.2.length, nxt)]).get?
      links.length = some (times1.length - 1, entry.2.length, nxt) :=
    List.get?_concat_length _ _
  have e2 : (times1.set (times1.length - 1)
      (entry.1, entry.2 ++ D)).get? (times1.length - 1)
      = some (entry.1, entry.2 ++ D) := by
    rw [List.get?_set_eq, hentry]
    rfl
  have e3 : (links ++ [(times1.length - 1, entry.2.length, nxt)]).get?
      (links.length + 1) = none :=
    List.get?_eq_none.mpr (by simp)
  simp only [get_range, e1, e2, e3]
  rw [if_pos (⟨by simp, le_refl _⟩ :
    entry.2.length ≤ (entry.2 ++ D).length ∧
      (entry.2 ++ D).length ≤ (entry.2 ++ D).length)]
  rw [List.drop_left]
  have hlen : (entry.2 ++ D).length - entry.2.length = D.length := by
    rw [List.length_append]
    omega
  rw [hlen, List.take_length]

/-- `traceStep` at an old link is unchanged by the new-link append. -/
theorem traceStep_set_last {links : List Link}
    {times1 : List (T × List (V × Int))} {km km' : List (K × Nat)}
    {tp' : List (V × Int)} {entry : T × List (V × Int)}
    {D : List (V × Int)} {nxt : Option Nat}
    (hidx : ∀ l ∈ links, l.1 < times1.length)
    (hmono : List.Chain' (fun a b : Link => a.1 ≤ b.1) links)
    (hentry : times1.get? (times1.length - 1) = some entry)
    {p : Nat} (hp : p < links.length) {s0 : List (V × Int)}
    (hval : get_range (⟨links, times1, km, []⟩ : CT K T V) p = some s0) :
    traceStep (⟨links ++ [(times1.length - 1, entry.2.length, nxt)],
        times1.set (times1.length - 1) (entry.1, entry.2 ++ D), km',
        tp'⟩ : CT K T V) p =
      traceStep (⟨links, times1, km, []⟩ : CT K T V) p := by
  obtain ⟨⟨i, lo, nx⟩, hpl⟩ : ∃ l, links.get? p = some l :=
    ⟨_, List.get?_eq_get hp⟩
  have hi : i < times1.length := hidx _ (List.get?_mem hpl)
  obtain ⟨⟨tm, vs⟩, hti⟩ : ∃ e, times1.get? i = some e :=
    ⟨_, List.get?_eq_get hi⟩
  have e1 : (links ++ [(times1.length - 1, entry.2.length, nxt)]).get? p
      = some (i, lo, nx) := by rw [List.get?_append hp]; exact hpl
  have hgr := get_range_set_last km' tp' D nxt hidx hmono hentry hp hval
  by_cases hii : i = times1.length - 1
  · have hvs : (tm, vs) = entry := by
      rw [hii, hentry] at hti
      exact (Option.some.inj hti).symm
    have htm : tm = entry.1 := by rw [← hvs]
    have e2 : (times1.set (times1.length - 1)
        (entry.1, entry.2 ++ D)).get? i = some (entry.1, entry.2 ++ D) := by
      rw [hii, List.get?_set_eq, hentry]
      rfl
    simp only [traceStep, e1, e2, hpl, hti, hgr, hval, htm]
  · have e2 : (times1.set (times1.length - 1)
        (entry.1, entry.2 ++ D)).get? i = some (tm, vs) :=
      (List.get?_set_ne _ _ (fun hc => hii hc.symm)).trans hti
    simp only [traceStep, e1, e2, hpl, hti, hgr, hval]

theorem traceStep_next {σ : CT K T V} {p : Nat}
    {st : (T × List (V × Int)) × Option Nat}
    (h : traceStep σ p = some st) :
    ∃ l, σ.links.get? p = some l ∧ st.2 = l.2.2 := by
  rcases hl : σ.links.get? p with _ | l
  · simp only [traceStep, hl] at h
    exact Option.noConfusion h
  · obtain ⟨i, lo, nx⟩ := l
    rcases ht : σ.times.get? i with _ | e
    · simp only [traceStep, hl, ht] at h
      exact Option.noConfusion h
    · obtain ⟨tm, vs⟩ := e
      rcases hr : get_range σ p with _ | s
      · simp only [traceStep, hl, ht, hr] at h
        exact Option.noConfusion h
      · simp only [traceStep, hl, ht, hr, Option.map_some'] at h
        refine ⟨(i, lo, nx), rfl, ?_⟩
        have h2 := Option.some.inj h
        rw [← h2]

/-- Tail of the `set_collection` analysis, after the time push and the
inner accumulation have been resolved. -/
theorem set_tail {σ σ' : CT K T V} {k : K} {t : T} {C : List (V × Int)}
    {times1 : List (T × List (V × Int))} {entry : T × List (V × Int)}
    {temp0 : List (V × Int)}
    (hwf : WF σ) (hwf1 : WF (⟨σ.links, times1, σ.keys, []⟩ : CT K T V))
    (hgl1 : times1.getLast? = some entry) (hent1 : entry.1 = t)
    (hget : get_collection (⟨σ.links, times1, σ.keys, []⟩ : CT K T V) k t []
      = some temp0)
    (hset :
      (match times1.get? (times1.length - 1) with
       | none => none
       | some entry2 =>
         if entry2.2.length <
             (merge [temp0.map (fun p => (p.1, p.2 * (-1))), coalesce C]
               entry2.2).length then
           match lookupKey σ.keys k with
           | none =>
             some ⟨σ.links ++ [(times1.length - 1, entry2.2.length, none)],
               times1.set (times1.length - 1) (entry2.1,
                 merge [temp0.map (fun p => (p.1, p.2 * (-1))), coalesce C]
                   entry2.2),
               σ.keys ++ [(k, σ.links.length)], []⟩
           | some prev =>
             if prev = σ.links.length then
               some ⟨σ.links ++
                   [(times1.length - 1, entry2.2.length, none)],
                 times1.set (times1.length - 1) (entry2.1,
                   merge [temp0.map (fun p => (p.1, p.2 * (-1))),
                     coalesce C] entry2.2),
                 σ.keys, []⟩
             else
               some ⟨σ.links ++
                   [(times1.length - 1, entry2.2.length, some prev)],
                 times1.set (times1.length - 1) (entry2.1,
                   merge [temp0.map (fun p => (p.1, p.2 * (-1))),
                     coalesce C] entry2.2),
                 setKey σ.keys k σ.links.length, []⟩
         else
           some ⟨σ.links, times1.set (times1.length - 1) (entry2.1,
             merge [temp0.map (fun p => (p.1, p.2 * (-1))), coalesce C]
               entry2.2), σ.keys, []⟩) = some σ') :
    ∃ (times1' : List (T × List (V × Int))) (entry' : T × List (V × Int))
      (temp0' D : List (V × Int)),
      WF (⟨σ.links, times1', σ.keys, []⟩ : CT K T V) ∧
      times1'.get? (times1'.length - 1) = some entry' ∧
      entry'.1 = t ∧
      get_collection (⟨σ.links, times1', σ.keys, []⟩ : CT K T V) k t []
        = some temp0' ∧
      D = merge [temp0'.map (fun p => (p.1, p.2 * (-1))), coalesce C] [] ∧
      ((D = [] ∧ σ' = ⟨σ.links, times1', σ.keys, []⟩) ∨
       (D ≠ [] ∧ ∃ km',
         σ' = ⟨σ.links ++ [(times1'.length - 1, entry'.2.length,
                 lookupKey σ.keys k)],
               times1'.set (times1'.length - 1) (entry'.1, entry'.2 ++ D),
               km', []⟩ ∧
         lookupKey km' k = some σ.links.length ∧
         (∀ e ∈ km', e.2 ≤ σ.links.length) ∧
         (km'.map Prod.fst).Nodup)) := by
  have hentry : times1.get? (times1.length - 1) = some entry := by
    rw [← List.getLast?_eq_get?]
    exact hgl1
  simp only [hentry] at hset
  have hm : merge [temp0.map (fun p => (p.1, p.2 * (-1))), coalesce C]
      entry.2
      = entry.2 ++ merge [temp0.map (fun p => (p.1, p.2 * (-1))),
          coalesce C] [] := merge_append_eq _ _
  rw [hm] at hset
  by_cases hD : merge [temp0.map (fun p => (p.1, p.2 * (-1))), coalesce C]
      [] = []
  · rw [hD, List.append_nil] at hset
    have heta : ((entry.1, entry.2) : T × List (V × Int)) = entry := rfl
    rw [heta, set_get?_self hentry] at hset
    rw [if_neg (lt_irrefl _)] at hset
    exact ⟨times1, entry, temp0, [], hwf1, hentry, hent1, hget, hD.symm,
      Or.inl ⟨rfl, (Option.some.inj hset).symm⟩⟩
  · have hcond : entry.2.length <
        (entry.2 ++ merge [temp0.map (fun p => (p.1, p.2 * (-1))),
          coalesce C] []).length := by
      rw [List.length_append]
      have := List.length_pos.mpr hD
      omega
    rw [if_pos hcond] at hset
    refine ⟨times1, entry, temp0,
      merge [temp0.map (fun p => (p.1, p.2 * (-1))), coalesce C] [],
      hwf1, hentry, hent1, hget, rfl, Or.inr ⟨hD, ?_⟩⟩
    rcases hlk : lookupKey σ.keys k with _ | prev
    · simp only [hlk] at hset
      refine ⟨σ.keys ++ [(k, σ.links.length)], ?_,
        lookupKey_append_self hlk _, ?_, ?_⟩
      · exact (Option.some.inj hset).symm
      · intro e he
        rcases List.mem_append.mp he with h1 | h2
        · exact le_of_lt (hwf.keysBound e h1)
        · rw [List.mem_singleton.mp h2]
      · rw [List.map_append, List.nodup_append]
        refine ⟨hwf.keysNodup, List.nodup_singleton _, ?_⟩
        intro a ha hb
        have hak : a = k := by simpa using hb
        obtain ⟨e, he, hea⟩ := List.mem_map.mp ha
        exact (lookupKey_none_iff σ.keys k).mp hlk e he (by rw [hea, hak])
    · have hprev : prev < σ.links.length :=
        hwf.keysBound _ (lookupKey_mem hlk)
      simp only [hlk] at hset
      rw [if_neg (by omega : ¬ prev = σ.links.length)] at hset
      refine ⟨setKey σ.keys k σ.links.length, ?_,
        lookupKey_setKey_self _ _ _, ?_, ?_⟩
      · exact (Option.some.inj hset).symm
      · intro e he
        rcases setKey_mem e he with heq | hmem
        · rw [heq]
        · exact le_of_lt (hwf.keysBound e hmem)
      · rw [setKey_fst_of_some hlk]
        exact hwf.keysNodup

/-- Shape of a successful `set_collection` call on a well-formed store:
the intermediate state after the conditional time push, the prior
accumulation `temp0`, and the delta `D`; the store either gains one link
whose slice is the delta, or (empty delta) only the time push remains. -/
theorem set_shape {σ σ' : CT K T V} {k : K} {t : T} {C : List (V × Int)}
    (hwf : WF σ) (hset : set_collection σ k t C = some σ') :
    ∃ (times1 : List (T × List (V × Int))) (entry : T × List (V × Int))
      (temp0 D : List (V × Int)),
      WF (⟨σ.links, times1, σ.keys, []⟩ : CT K T V) ∧
      times1.get? (times1.length - 1) = some entry ∧
      entry.1 = t ∧
      get_collection (⟨σ.links, times1, σ.keys, []⟩ : CT K T V) k t []
        = some temp0 ∧
      D = merge [temp0.map (fun p => (p.1, p.2 * (-1))), coalesce C] [] ∧
      ((D = [] ∧ σ' = ⟨σ.links, times1, σ.keys, []⟩) ∨
       (D ≠ [] ∧ ∃ km',
         σ' = ⟨σ.links ++ [(times1.length - 1, entry.2.length,
                 lookupKey σ.keys k)],
               times1.set (times1.length - 1) (entry.1, entry.2 ++ D),
               km', []⟩ ∧
         lookupKey km' k = some σ.links.length ∧
         (∀ e ∈ km', e.2 ≤ σ.links.length) ∧
         (km'.map Prod.fst).Nodup)) := by
  have htemp : σ.temp = [] := hwf.tempNil
  rcases hgl : σ.times.getLast? with _ | last
  · simp only [set_collection, htemp, hgl, List.getLast?_concat] at hset
    rcases hgc : get_collection
        (⟨σ.links, σ.times ++ [(t, [])], σ.keys, []⟩ : CT K T V) k t []
      with _ | temp0
    · rw [hgc] at hset
      exact Option.noConfusion hset
    · rw [hgc] at hset
      exact set_tail hwf (wf_push_time hwf t) (List.getLast?_concat _) rfl
        hgc hset
  · by_cases hteq : last.1 = t
    · simp only [set_collection, htemp, hgl] at hset
      rw [if_pos hteq] at hset
      simp only [hgl, hteq] at hset
      rcases hgc : get_collection
          (⟨σ.links, σ.times, σ.keys, []⟩ : CT K T V) k t []
        with _ | temp0
      · rw [hgc] at hset
        exact Option.noConfusion hset
      · rw [hgc] at hset
        exact set_tail hwf (wf_retime hwf) hgl hteq hgc hset
    · simp only [set_collection, htemp, hgl, if_neg hteq,
        List.getLast?_concat] at hset
      rcases hgc : get_collection
          (⟨σ.links, σ.times ++ [(t, [])], σ.keys, []⟩ : CT K T V) k t []
        with _ | temp0
      · rw [hgc] at hset
        exact Option.noConfusion hset
      · rw [hgc] at hset
        exact set_tail hwf (wf_push_time hwf t) (List.getLast?_concat _)
          rfl hgc hset

/-- `set_collection` preserves well-formedness. -/
theorem wf_set {σ σ' : CT K T V} {k : K} {t : T} {C : List (V × Int)}
    (hwf : WF σ) (hset : set_collection σ k t C = some σ') : WF σ' := by
  obtain ⟨times1, entry, temp0, D, hwf1, hentry, hent1, hget, hD, hcase⟩ :=
    set_shape hwf hset
  rcases hcase with ⟨_, hσ'⟩ | ⟨hDne, km', hσ', hlk', hkb', hnd'⟩
  · rw [hσ']
    exact hwf1
  · obtain ⟨ch1, out1, hch1, hco1, _, _, hget1, _, houtco1, _⟩ :=
      get_collection_out hwf1 k t
    have htemp0 : temp0 = out1 := by
      rw [hget] at hget1
      exact Option.some.inj hget1
    have hDco : Coalesced D := by
      rw [hD]
      refine merge_coalesced _ ?_
      intro s hs
      rcases List.mem_cons.mp hs with heq | hs2
      · rw [heq, htemp0]
        exact coalesced_negate houtco1
      · rcases List.mem_cons.mp hs2 with heq2 | hs3
        · rw [heq2]
          exact (coalesce_spec C).1
        · cases hs3
    have hidx1 : ∀ l ∈ σ.links, l.1 < times1.length := hwf1.linkTime
    have hmono1 : List.Chain' (fun a b : Link => a.1 ≤ b.1) σ.links :=
      hwf1.linkMono
    have hL : 0 < times1.length := by
      obtain ⟨hlt, _⟩ := List.get?_eq_some.mp hentry
      omega
    rw [hσ']
    refine ⟨?_, ?_, ?_, ?_, hnd', ?_, rfl⟩
    · intro l hl
      simp only [List.length_set]
      rcases List.mem_append.mp hl with h1 | h2
      · exact hidx1 l h1
      · rw [List.mem_singleton.mp h2]
        show times1.length - 1 < times1.length
        omega
    · rw [List.chain'_append]
      refine ⟨hmono1, List.chain'_singleton _, ?_⟩
      intro x hx y hy
      have hx1 : x.1 < times1.length := hidx1 x (mem_of_mem_getLast? hx)
      have hy1 : y = (times1.length - 1, entry.2.length,
          lookupKey σ.keys k) := by
        have := List.mem_of_mem_head? hy
        simpa using this
      rw [hy1]
      show x.1 ≤ times1.length - 1
      omega
    · intro p hp
      simp only [List.length_append, List.length_cons, List.length_nil,
        Nat.zero_add] at hp
      rcases Nat.lt_or_ge p σ.links.length with hlt | hge
      · obtain ⟨s0, hs0, hs0c⟩ := hwf1.ranges p hlt
        refine ⟨s0, ?_, hs0c⟩
        rw [get_range_set_last km' [] D (lookupKey σ.keys k)
          hidx1 hmono1 hentry hlt hs0]
        exact hs0
      · have hpe : p = σ.links.length := by omega
        rw [hpe]
        exact ⟨D, get_range_new_link σ.links km' [] D (lookupKey σ.keys k)
          hentry, hDco⟩
    · intro e he
      have := hkb' e he
      simp only [List.length_append, List.length_cons, List.length_nil,
        Nat.zero_add]
      omega
    · intro p l hgetp q hq
      rcases Nat.lt_trichotomy p σ.links.length with hlt | heq | hgt
      · rw [List.get?_append hlt] at hgetp
        exact hwf1.linkNext p l hgetp q hq
      · rw [heq, List.get?_concat_length] at hgetp
        have hl := Option.some.inj hgetp
        rw [← hl] at hq
        have hq' : lookupKey σ.keys k = some q := hq
        have := hwf.keysBound _ (lookupKey_mem hq')
        rw [heq]
        exact this
      · rw [List.get?_eq_none.mpr (by
          simp only [List.length_append, List.length_cons, List.length_nil,
            Nat.zero_add]
          omega)] at hgetp
        exact Option.noConfusion hgetp

/-- The empty store is well-formed. -/
theorem wf_new : WF (CT.new : CT K T V) := by
  refine ⟨?_, ?_, ?_, ?_, ?_, ?_, rfl⟩
  · intro l hl
    exact absurd hl (List.not_mem_nil l)
  · exact List.chain'_nil
  · intro p hp
    exact absurd hp (Nat.not_lt_zero p)
  · intro e he
    exact absurd he (List.not_mem_nil e)
  · exact List.nodup_nil
  · intro p l h
    rw [List.get?_eq_none.mpr (Nat.zero_le p)] at h
    exact Option.noConfusion h

/-- Every state reachable by valid calls is well-formed. -/
theorem reachable_wf {σ : CT K T V} (h : Reachable σ) : WF σ := by
  induction h with
  | init => exact wf_new
  | install _ hv ih => exact wf_install ih hv
  | set _ hs ih => exact wf_set ih hs

/-- After a successful `set_collection`, reading the same key at the same
time yields exactly the coalesced collection. -/
theorem get_collection_set {σ σ' : CT K T V} {k : K} {t : T}
    {C : List (V × Int)} (hwf : WF σ)
    (hset : set_collection σ k t C = some σ') :
    get_collection σ' k t [] = some (coalesce C) := by
  obtain ⟨times1, entry, temp0, D, hwf1, hentry, hent1, hget, hD, hcase⟩ :=
    set_shape hwf hset
  obtain ⟨ch1, out1, hch1, hco1, _, _, hget1, hout1, houtco1, hw1⟩ :=
    get_collection_out hwf1 k t
  have htemp0 : temp0 = out1 := by
    rw [hget] at hget1
    exact Option.some.inj hget1
  have hDw : ∀ v, weight v D = -weight v out1 + weight v (coalesce C) := by
    intro v
    rw [hD, merge_weight, sumWeights_cons, sumWeights_cons, sumWeights_nil,
      weight_negate, htemp0]
    ring
  have hDco : Coalesced D := by
    rw [hD]
    refine merge_coalesced _ ?_
    intro s hs
    rcases List.mem_cons.mp hs with heq | hs2
    · rw [heq, htemp0]
      exact coalesced_negate houtco1
    · rcases List.mem_cons.mp hs2 with heq2 | hs3
      · rw [heq2]
        exact (coalesce_spec C).1
      · cases hs3
  rcases hcase with ⟨hDnil, hσ'⟩ | ⟨hDne, km', hσ', hlk', hkb', hnd'⟩
  · rw [hσ', hget1]
    congr 1
    refine coalesced_ext houtco1 (coalesce_spec C).1 ?_
    intro v
    have h0 := hDw v
    rw [hDnil, weight_nil] at h0
    omega
  · subst hσ'
    have hstepEq : ∀ p, p < σ.links.length →
        traceStep (⟨σ.links ++ [(times1.length - 1, entry.2.length,
            lookupKey σ.keys k)],
          times1.set (times1.length - 1) (entry.1, entry.2 ++ D), km',
          []⟩ : CT K T V) p =
        traceStep (⟨σ.links, times1, σ.keys, []⟩ : CT K T V) p := by
      intro p hp
      obtain ⟨s0, hs0, _⟩ := hwf1.ranges p hp
      exact traceStep_set_last hwf1.linkTime hwf1.linkMono hentry hp hs0
    have hnextB : ∀ p, p < σ.links.length →
        ∀ st, traceStep (⟨σ.links, times1, σ.keys, []⟩ : CT K T V) p
          = some st → ∀ q ∈ st.2, q < σ.links.length := by
      intro p hp st hst q hq
      obtain ⟨l, hl, hst2⟩ := traceStep_next hst
      rw [hst2] at hq
      exact lt_trans (hwf1.linkNext p l hl q hq) hp
    have hkb1 : ∀ p, lookupKey σ.keys k = some p → p < σ.links.length := by
      intro p hp
      exact hwf.keysBound _ (lookupKey_mem hp)
    have hcongr := traceFrom_congr hstepEq hnextB (σ.links.length + 1)
      (lookupKey σ.keys k) hkb1
    have hstepNew : traceStep (⟨σ.links ++ [(times1.length - 1,
          entry.2.length, lookupKey σ.keys k)],
        times1.set (times1.length - 1) (entry.1, entry.2 ++ D), km',
        []⟩ : CT K T V) σ.links.length
        = some ((entry.1, D), lookupKey σ.keys k) := by
      have e1 : (σ.links ++ [(times1.length - 1, entry.2.length,
          lookupKey σ.keys k)]).get? σ.links.length
          = some (times1.length - 1, entry.2.length, lookupKey σ.keys k) :=
        List.get?_concat_length _ _
      have e2 : (times1.set (times1.length - 1)
          (entry.1, entry.2 ++ D)).get? (times1.length - 1)
          = some (entry.1, entry.2 ++ D) := by
        rw [List.get?_set_eq, hentry]
        rfl
      have e3 := get_range_new_link σ.links km' ([] : List (V × Int)) D
        (lookupKey σ.keys k) hentry
      exact traceStep_eq e1 e2 e3
    have hch1' : traceFrom (⟨σ.links, times1, σ.keys, []⟩ : CT K T V)
        (σ.links.length + 1) (lookupKey σ.keys k) = some ch1 := hch1
    have htl : traceList (⟨σ.links ++ [(times1.length - 1, entry.2.length,
        lookupKey σ.keys k)],
        times1.set (times1.length - 1) (entry.1, entry.2 ++ D), km',
        []⟩ : CT K T V) k = some ((t, D) :: ch1) := by
      show traceFrom _ ((σ.links ++ [(times1.length - 1, entry.2.length,
        lookupKey σ.keys k)]).length + 1) (lookupKey km' k)
        = some ((t, D) :: ch1)
      rw [hlk']
      have hlen2 : (σ.links ++ [(times1.length - 1, entry.2.length,
          lookupKey σ.keys k)]).length = σ.links.length + 1 := by
        simp
      rw [hlen2]
      simp only [traceFrom, hstepNew, hcongr, hch1', Option.map_some']
      rw [hent1]
    have hfil : (((t, D) :: ch1).filter (fun e => decide (e.1 ≤ t)))
        = (t, D) :: ch1.filter (fun e => decide (e.1 ≤ t)) := by
      simp [List.filter_cons]
    have hgc2 : get_collection (⟨σ.links ++ [(times1.length - 1,
          entry.2.length, lookupKey σ.keys k)],
        times1.set (times1.length - 1) (entry.1, entry.2 ++ D), km',
        []⟩ : CT K T V) k t []
        = some (merge (D :: (ch1.filter (fun e => decide (e.1 ≤ t))).map
            (fun e => e.2)) []) := by
      unfold get_collection
      rw [if_pos (show ([] : List (V × Int)).length = 0 from rfl)]
      rw [htl, Option.map_some']
      congr 1
      rw [hfil, List.map_cons]
    rw [hgc2]
    congr 1
    refine coalesced_ext ?_ (coalesce_spec C).1 ?_
    · refine merge_coalesced _ ?_
      intro s hs
      rcases List.mem_cons.mp hs with heq | hs2
      · rw [heq]
        exact hDco
      · obtain ⟨e, he, hes⟩ := List.mem_map.mp hs2
        rw [← hes]
        exact hco1 e (List.mem_of_mem_filter he)
    · intro v
      rw [merge_weight, sumWeights_cons]
      have h1 := hw1 v
      have h2 := hDw v
      omega

/-! ### The install loop against its claim-side description -/

theorem installLoop_spec_eq (timesLen : Nat) :
    ∀ (fuel : Nat) (ks : List K) (lower : Nat) (links : List Link)
      (km : List (K × Nat)),
    (∀ e ∈ km, e.2 < links.length) →
    installLoop timesLen fuel ks lower links km =
      installSpecLoop timesLen (runsFrom fuel ks lower) links km := by
  intro fuel
  induction fuel with
  | zero =>
    intro ks lower links km hkb
    match ks with
    | [] => rfl
    | k :: rest => rfl
  | succ fuel ih =>
    intro ks lower links km hkb
    match ks with
    | [] => rfl
    | k :: rest =>
      simp only [installLoop, runsFrom, installSpecLoop]
      rcases hlk : lookupKey km k with _ | prev
      · simp only [hlk]
        rw [setKey_of_none hlk]
        refine ih (splitRun k rest).2 (lower + (splitRun k rest).1 + 1)
          (links ++ [(timesLen, lower, none)]) (km ++ [(k, links.length)])
          ?_
        intro e he
        rcases List.mem_append.mp he with h1 | h2
        · have := hkb e h1
          simp only [List.length_append, List.length_cons, List.length_nil]
          omega
        · rw [List.mem_singleton.mp h2]
          show links.length < (links ++ [(timesLen, lower, none)]).length
          simp
      · simp only [hlk]
        have hprev : prev < links.length := hkb _ (lookupKey_mem hlk)
        rw [if_neg (by omega : ¬ prev = links.length)]
        refine ih (splitRun k rest).2 (lower + (splitRun k rest).1 + 1)
          (links ++ [(timesLen, lower, some prev)])
          (setKey km k links.length) ?_
        intro e he
        rcases setKey_mem e he with heq | hmem
        · rw [heq]
          show links.length < (links ++ [(timesLen, lower, some prev)]).length
          simp
        · have := hkb e hmem
          simp only [List.length_append, List.length_cons, List.length_nil]
          omega

/-! ### The fold inside `interesting_times` -/

theorem foldl_pushLub (lub : T → T → T) (index : T) :
    ∀ (ch : List (T × List (V × Int))) (res : List T),
    (∀ x ∈ res, x ∈ ch.foldl (fun r e =>
       let l := lub e.1 index
       if l ∈ r then r else r ++ [l]) res) ∧
    (∀ e ∈ ch, lub e.1 index ∈ ch.foldl (fun r e =>
       let l := lub e.1 index
       if l ∈ r then r else r ++ [l]) res) := by
  intro ch
  induction ch with
  | nil =>
    intro res
    exact ⟨fun x hx => hx, fun e he => absurd he (List.not_mem_nil e)⟩
  | cons e0 ch ih =>
    intro res
    constructor
    · intro x hx
      simp only [List.foldl_cons]
      by_cases hc : lub e0.1 index ∈ res
      · rw [if_pos hc]
        exact (ih res).1 x hx
      · rw [if_neg hc]
        exact (ih _).1 x (List.mem_append.mpr (Or.inl hx))
    · intro e he
      simp only [List.foldl_cons]
      rcases List.mem_cons.mp he with heq | hmem
      · rw [heq]
        by_cases hc : lub e0.1 index ∈ res
        · rw [if_pos hc]
          exact (ih res).1 _ hc
        · rw [if_neg hc]
          exact (ih _).1 _
            (List.mem_append.mpr (Or.inr (List.mem_singleton.mpr rfl)))
      · by_cases hc : lub e0.1 index ∈ res
        · rw [if_pos hc]
          exact (ih res).2 e hmem
        · rw [if_neg hc]
          exact (ih _).2 e hmem

/-! ### Chain-position facts for the monotonicity claim -/

theorem timeIdxAt_eq {σ : CT K T V} {q : Nat} {l : Link}
    (h : σ.links.get? q = some l) : timeIdxAt σ q = l.1 := by
  rw [timeIdxAt, h]
  rfl

theorem chain_gt_get? {ps : List Nat}
    (h : List.Chain' (fun a b => b < a) ps) {m a b : Nat}
    (ha : ps.get? m = some a) (hb : ps.get? (m + 1) = some b) : b < a := by
  haveI : IsTrans Nat (fun a b : Nat => b < a) :=
    ⟨fun _ _ _ h1 h2 => lt_trans h2 h1⟩
  have hpw := List.chain'_iff_pairwise.mp h
  obtain ⟨hm, hga⟩ := List.get?_eq_some.mp ha
  obtain ⟨hm1, hgb⟩ := List.get?_eq_some.mp hb
  have := (List.pairwise_iff_get.mp hpw) ⟨m, hm⟩ ⟨m + 1, hm1⟩
    (Fin.mk_lt_mk.mpr (Nat.lt_succ_self m))
  rw [hga, hgb] at this
  exact this

/-- Two strictly ordered non-zero pairs form a coalesced batch. -/
theorem coalesced_pair {p q : V × Int} (h1 : p.1 < q.1) (h2 : p.2 ≠ 0)
    (h3 : q.2 ≠ 0) : Coalesced [p, q] := by
  refine ⟨List.chain'_cons.mpr ⟨h1, List.chain'_singleton _⟩, ?_⟩
  intro r hr
  rcases List.mem_cons.mp hr with heq | hr2
  · rw [heq]
    exact h2
  · rw [List.mem_singleton.mp hr2]
    exact h3

/-! ## Claim theorems -/

/-- C1: after any valid sequence of `install_differences` and
`set_collection` calls, `get_collection k t` with an empty target
succeeds and appends exactly the merge of the batch slices in `k`'s
chain whose time is `≤ t` under the partial order (slices at
incomparable times are filtered out and contribute nothing); the output
is sorted and coalesced, each value's weight is the sum of its weights
across the retained slices, and an unknown key yields an empty result. -/
theorem C1_accumulation {σ : CT K T V} (hr : Reachable σ) (k : K) (t : T) :
    ∃ ch out, traceList σ k = some ch ∧
      get_collection σ k t [] = some out ∧
      out = merge ((ch.filter (fun e => decide (e.1 ≤ t))).map
        (fun e => e.2)) [] ∧
      Coalesced out ∧
      (∀ v, weight v out = sumWeights v ((ch.filter
        (fun e => decide (e.1 ≤ t))).map (fun e => e.2))) ∧
      (lookupKey σ.keys k = none → out = []) := by
  obtain ⟨ch, out, hch, hco, hlen, hnil, hget, hout, houtco, hw⟩ :=
    get_collection_out (reachable_wf hr) k t
  refine ⟨ch, out, hch, hget, hout, houtco, hw, ?_⟩
  intro hlk
  rw [hout, hnil hlk]
  rfl

theorem C1_accumulation_witness :
    ∃ ch out, traceList wS2 0 = some ch ∧
      get_collection wS2 0 2 [] = some out ∧
      out = merge ((ch.filter (fun e => decide (e.1 ≤ 2))).map
        (fun e => e.2)) [] ∧
      Coalesced out ∧
      (∀ v, weight v out = sumWeights v ((ch.filter
        (fun e => decide (e.1 ≤ 2))).map (fun e => e.2))) ∧
      (lookupKey wS2.keys 0 = none → out = []) :=
  C1_accumulation
    (Reachable.install
      (Reachable.install Reachable.init (by unfold ValidInstall; decide))
      (by unfold ValidInstall; decide)) 0 2

/-- C2: for sorted, coalesced input slices, `merge` appends to the
target the multiset sum of the inputs, sorted by value and coalesced
with zero-sum values dropped; weights of equal values are summed across
slices regardless of slice order, and a single remaining non-empty slice
is appended verbatim. -/
theorem C2_merge (slices : List (List (V × Int)))
    (target : List (V × Int)) (h : ∀ s ∈ slices, Coalesced s) :
    merge slices target = target ++ merge slices [] ∧
    Coalesced (merge slices []) ∧
    (∀ v, weight v (merge slices []) = sumWeights v slices) ∧
    (∀ s : List (V × Int), s ≠ [] → merge [s] target = target ++ s) :=
  ⟨merge_append_eq slices target, merge_coalesced slices h,
    merge_weight slices, fun s hs => merge_single s target hs⟩

theorem C2_merge_witness :
    (∀ s ∈ [[((0 : Nat), (1 : Int)), (1, 2)], [(0, -1), (2, 3)]],
      Coalesced s) ∧
    (merge [[((0 : Nat), (1 : Int)), (1, 2)], [(0, -1), (2, 3)]] [(9, 9)]
        = [(9, 9)] ++
          merge [[((0 : Nat), (1 : Int)), (1, 2)], [(0, -1), (2, 3)]] [] ∧
      Coalesced
        (merge [[((0 : Nat), (1 : Int)), (1, 2)], [(0, -1), (2, 3)]] []) ∧
      (∀ v, weight v
          (merge [[((0 : Nat), (1 : Int)), (1, 2)], [(0, -1), (2, 3)]] [])
        = sumWeights v [[((0 : Nat), (1 : Int)), (1, 2)], [(0, -1), (2, 3)]]) ∧
      (∀ s : List (Nat × Int), s ≠ [] →
        merge [s] [((9 : Nat), (9 : Int))] = [(9, 9)] ++ s)) := by
  have hyp : ∀ s ∈ [[((0 : Nat), (1 : Int)), (1, 2)], [(0, -1), (2, 3)]],
      Coalesced s := by
    intro s hs
    rcases List.mem_cons.mp hs with heq | hs2
    · rw [heq]
      exact coalesced_pair (by norm_num) (by norm_num) (by norm_num)
    · rw [List.mem_singleton.mp hs2]
      exact coalesced_pair (by norm_num) (by norm_num) (by norm_num)
  exact ⟨hyp, C2_merge _ [(9, 9)] hyp⟩

/-- C3: immediately after a successful `set_collection k t C` on a
reachable store (`t` being the active time, or freshly appended by the
call), `get_collection k t` on an empty target yields exactly the
coalesced form of `C`. -/
theorem C3_set_fixpoint {σ σ' : CT K T V} {k : K} {t : T}
    {C : List (V × Int)} (hr : Reachable σ)
    (hset : set_collection σ k t C = some σ') :
    get_collection σ' k t [] = some (coalesce C) :=
  get_collection_set (reachable_wf hr) hset

theorem C3_set_fixpoint_witness :
    get_collection wS3 0 2 [] = some (coalesce [(1, 1), (2, 5)]) := by
  have hr : Reachable wS2 :=
    Reachable.install
      (Reachable.install Reachable.init (by unfold ValidInstall; decide))
      (by unfold ValidInstall; decide)
  have hs : set_collection wS2 0 2 [(1, 1), (2, 5)] = some wS3 := by decide
  exact C3_set_fixpoint hr hs

/-- C4: REFUTED (code bug).  The claimed invariant — every link's
`time_index` stays below `times.len()` after every sequence of calls —
fails when `install_differences` is called with a time equal to the
current last time entry: the second install in `wB2` pushes a link with
`time_index = times.len()` but pushes no time entry, leaving a dangling
index; `get_range` on that link and `get_collection` on the affected key
then index past the end of the time array (a Rust panic, modelled as
`none`). -/
theorem C4_dangling_time_index :
    (∃ l ∈ wB2.links, wB2.times.length ≤ l.1) ∧
    get_range wB2 1 = none ∧
    get_collection wB2 0 0 [] = none := by
  refine ⟨?_, ?_, ?_⟩ <;> decide

/-- C5: `install_differences` pushes a `(time, vals)` entry exactly when
the time array is empty or its last entry's time differs (otherwise the
time array is unchanged and `vals` is discarded), and appends one link
per contiguous run of equal keys — `next` pointing at the key's prior
head (`none` for a first-inserted key) and the key map updated to the
new link — as captured by the claim-side description `installSpec`. -/
theorem C5_install_effect {σ : CT K T V} (t : T) (keys : List K)
    (vals : List (V × Int))
    (hkb : ∀ e ∈ σ.keys, e.2 < σ.links.length) :
    install_differences σ t keys vals = installSpec σ t keys vals := by
  simp only [install_differences, installSpec]
  rw [installLoop_spec_eq σ.times.length keys.length keys 0 σ.links σ.keys
    hkb]

theorem C5_install_effect_witness :
    (∀ e ∈ wS1.keys, e.2 < wS1.links.length) ∧
    install_differences wS1 2 [0, 5] [(0, 2), (1, 1)]
      = installSpec wS1 2 [0, 5] [(0, 2), (1, 1)] :=
  ⟨by decide, C5_install_effect 2 [0, 5] [(0, 2), (1, 1)] (by decide)⟩

/-- C6: for a semilattice `lub`, `interesting_times` returns a vector
containing `lub t index` for every time `t` in the key's chain, keeping
every previously present element, and the result is closed under `lub`. -/
theorem C6_interesting_times {σ : CT K T V} {k : K} {lub : T → T → T}
    {index : T} {result : List T} {ch : List (T × List (V × Int))}
    (hA : ∀ a b c, lub (lub a b) c = lub a (lub b c))
    (hC : ∀ a b, lub a b = lub b a)
    (hI : ∀ a, lub a a = a)
    (hch : traceList σ k = some ch) :
    ∃ res, interesting_times lub σ k index result = some res ∧
      (∀ e ∈ ch, lub e.1 index ∈ res) ∧
      (∀ x ∈ result, x ∈ res) ∧
      LubClosed lub res := by
  refine ⟨close_under_lub lub (ch.foldl (fun r e =>
      let l := lub e.1 index
      if l ∈ r then r else r ++ [l]) result), ?_, ?_, ?_, ?_⟩
  · simp only [interesting_times, hch, Option.map_some']
  · intro e he
    exact close_under_lub_subset lub _
      ((foldl_pushLub lub index ch result).2 e he)
  · intro x hx
    exact close_under_lub_subset lub _
      ((foldl_pushLub lub index ch result).1 x hx)
  · exact close_under_lub_closed hA hC hI _

theorem C6_interesting_times_witness :
    ∃ res, interesting_times Nat.max wS2 0 1 [] = some res ∧
      (∀ e ∈ [((2 : Nat), [((0 : Nat), (-1 : Int))]), (1, [(0, 1), (1, 1)])],
        Nat.max e.1 1 ∈ res) ∧
      (∀ x ∈ ([] : List Nat), x ∈ res) ∧
      LubClosed Nat.max res :=
  C6_interesting_times (fun a b c => Nat.max_assoc a b c)
    (fun a b => Nat.max_comm a b) (fun a => Nat.max_self a)
    (by decide)

/-- C7: on every reachable store, walking a key's chain from the key-map
head yields strictly decreasing link positions whose `time_index` values
are non-increasing, so `trace` yields its `(time, batch)` pairs
newest-first, and the walk is finite with length at most the number of
link records. -/
theorem C7_chain_monotone {σ : CT K T V} (hr : Reachable σ) (k : K) :
    ∃ ch ps, traceList σ k = some ch ∧ chainPos σ k = some ps ∧
      List.Chain' (fun a b => b < a) ps ∧
      List.Chain' (fun a b => timeIdxAt σ b ≤ timeIdxAt σ a) ps ∧
      ch.length = ps.length ∧ ch.length ≤ σ.links.length := by
  have hwf := reachable_wf hr
  rcases hlk : lookupKey σ.keys k with _ | h0
  · refine ⟨[], [], ?_, ?_, List.chain'_nil, List.chain'_nil, rfl, by simp⟩
    · unfold traceList
      rw [hlk]
      rfl
    · unfold chainPos
      rw [hlk]
      rfl
  · have hh : h0 < σ.links.length :=
      hwf.keysBound (k, h0) (lookupKey_mem hlk)
    obtain ⟨ch, ps, hch, hps, hhead, hlen, hchain, hbound, hco⟩ :=
      walk_wf hwf (σ.links.length + 1) h0 hh (by omega)
    have hmem : ∀ q ∈ ps, q < σ.links.length :=
      fun q hq => lt_of_le_of_lt (hbound q hq) hh
    refine ⟨ch, ps, ?_, ?_, hchain, ?_, hlen, ?_⟩
    · unfold traceList
      rw [hlk]
      exact hch
    · unfold chainPos
      rw [hlk]
      exact hps
    · refine chain'_of_get? ps ?_
      intro m a b hma hmb
      have hab : b < a := chain_gt_get? hchain hma hmb
      have haL : a < σ.links.length := hmem a (List.get?_mem hma)
      have hbL : b < σ.links.length := hmem b (List.get?_mem hmb)
      obtain ⟨la, hla⟩ : ∃ l, σ.links.get? a = some l :=
        ⟨_, List.get?_eq_get haL⟩
      obtain ⟨lb, hlb⟩ : ∃ l, σ.links.get? b = some l :=
        ⟨_, List.get?_eq_get hbL⟩
      rw [timeIdxAt_eq hla, timeIdxAt_eq hlb]
      exact linkMono_get hwf hla hlb hab
    · rw [hlen]
      exact decreasing_bounded_length hchain hmem

theorem C7_chain_monotone_witness :
    ∃ ch ps, traceList wS2 0 = some ch ∧ chainPos wS2 0 = some ps ∧
      List.Chain' (fun a b => b < a) ps ∧
      List.Chain' (fun a b => timeIdxAt wS2 b ≤ timeIdxAt wS2 a) ps ∧
      ch.length = ps.length ∧ ch.length ≤ wS2.links.length :=
  C7_chain_monotone
    (Reachable.install
      (Reachable.install Reachable.init (by unfold ValidInstall; decide))
      (by unfold ValidInstall; decide)) 0

/-- C8: on every reachable store, the stream produced by
`get_collection_iterator k t` equals, in order, the sequence of entries
`get_collection k t` appends to an empty target. -/
theorem C8_iterator_equiv {σ : CT K T V} (hr : Reachable σ) (k : K)
    (t : T) : get_collection_iterator σ k t = get_collection σ k t [] := by
  have hwf := reachable_wf hr
  obtain ⟨ch, out, hch, hco, _, _, hget, hout, houtco, hw⟩ :=
    get_collection_out hwf k t
  rw [hget]
  unfold get_collection_iterator
  rw [hch, Option.map_some']
  congr 1
  refine coalesced_ext ?_ houtco ?_
  · refine coalesceRuns_coalesced (mergeStreams_sorted _ _ ?_)
    intro s hs
    obtain ⟨e, he, hes⟩ := List.mem_map.mp hs
    have hcoe := hco e (List.mem_of_mem_filter he)
    rw [← hes]
    exact hcoe.1.imp (fun _ _ hab => le_of_lt hab)
  · intro v
    rw [coalesceRuns_weight, mergeStreams_weight _ _ (le_refl _) v, hout,
      merge_weight]

theorem C8_iterator_equiv_witness :
    get_collection_iterator wS2 0 2 = get_collection wS2 0 2 [] :=
  C8_iterator_equiv
    (Reachable.install
      (Reachable.install Reachable.init (by unfold ValidInstall; decide))
      (by unfold ValidInstall; decide)) 0 2

/-- C9: `Offset::new` succeeds on every index strictly below `2^32 − 1`
and its `val` accessor round-trips to exactly that index; on any index
`≥ 2^32 − 1` the constructor's assert fails fast. -/
theorem C9_offset_roundtrip (n : Nat) :
    (n < 2 ^ 32 - 1 → ∃ o, offsetNew n = some o ∧ OffsetT.val o = n) ∧
    (2 ^ 32 - 1 ≤ n → offsetNew n = none) := by
  constructor
  · intro h
    refine ⟨⟨2 ^ 32 - 1 - n⟩, ?_, ?_⟩
    · rw [offsetNew, if_pos h]
    · show 2 ^ 32 - 1 - (2 ^ 32 - 1 - n) = n
      omega
  · intro h
    rw [offsetNew, if_neg (by omega)]

theorem C9_offset_roundtrip_witness :
    (∃ o, offsetNew 5 = some o ∧ OffsetT.val o = 5) ∧
    offsetNew (2 ^ 32 - 1) = none :=
  ⟨(C9_offset_roundtrip 5).1 (by norm_num),
   (C9_offset_roundtrip (2 ^ 32 - 1)).2 (le_refl _)⟩

/-- C10: `get_collection` fails fast (the assert, modelled as `none`)
exactly when called with a non-empty target — the check happens before
any merging, and the embedding's `get_collection` reads the store
without modifying it — while on a reachable store an empty target never
fails. -/
theorem C10_target_contract (σ : CT K T V) (k : K) (t : T)
    (target : List (V × Int)) :
    (target ≠ [] → get_collection σ k t target = none) ∧
    (Reachable σ → ∃ out, get_collection σ k t [] = some out) := by
  constructor
  · intro h
    unfold get_collection
    rw [if_neg (fun hc => h (List.length_eq_zero.mp hc))]
  · intro hr
    obtain ⟨ch, out, _, _, _, _, hget, _, _, _⟩ :=
      get_collection_out (reachable_wf hr) k t
    exact ⟨out, hget⟩

theorem C10_target_contract_witness :
    (get_collection wS1 0 1 [(0, 1)] = none) ∧
    ∃ out, get_collection wS1 0 1 [] = some out :=
  ⟨(C10_target_contract wS1 0 1 [(0, 1)]).1 (by decide),
   (C10_target_contract wS1 0 1 [(0, 1)]).2
     (Reachable.install Reachable.init (by unfold ValidInstall; decide))⟩

end DDT
